import Mathlib

/-!
Verification of the agent-session-parser library: a shallow embedding of its
chunking/reassembly layer, its line-delimited (Claude) transcript parser and
token-usage aggregator, and its message-array (Gemini) token extractor,
together with theorems settling the specified properties.

Strings are modelled as `List Char` (one entry per UTF-16 code unit, which is
what JavaScript `.length` and indexing count). External library functions
(`JSON.parse` / `JSON.stringify`) are taken as parameters where a function
under study merely calls them on opaque payloads.
-/

namespace ASP

/-- Strings as lists of characters. -/
abbrev Str := List Char

/-- The ASCII whitespace characters removed by JavaScript `trim`/`trimStart`
(the model restricts attention to the ASCII range). -/
def isJSWhitespace (c : Char) : Bool :=
  c = ' ' || c = '\t' || c = '\n' || c = '\r' || c = '\x0b' || c = '\x0c'

/-- Model of JavaScript `String.prototype.trimStart`. -/
def trimStartL (s : Str) : Str := s.dropWhile isJSWhitespace

/-- Model of JavaScript `String.prototype.trim`. -/
def trimL (s : Str) : Str :=
  ((s.dropWhile isJSWhitespace).reverse.dropWhile isJSWhitespace).reverse

/-- Boolean list-prefix test (model of JavaScript `String.prototype.startsWith`). -/
def isPrefixL : Str → Str → Bool
  | [], _ => true
  | _ :: _, [] => false
  | a :: as, b :: bs => a = b && isPrefixL as bs

/-- First index at which `pat` occurs as a contiguous substring
(model of JavaScript `String.prototype.indexOf`). -/
def findSub (pat : Str) : Str → Option Nat
  | [] => if isPrefixL pat [] then some 0 else none
  | c :: rest =>
      if isPrefixL pat (c :: rest) then some 0
      else (findSub pat rest).map (· + 1)

-- ============================================================================
-- Token usage (types.ts): the numeric tuple returned by the aggregators.
-- ============================================================================

/-- `TokenUsage` from `types.ts`: four token counters, an API call count and an
optional nested usage for spawned subagents. -/
inductive TokenUsage : Type where
  | mk (inputTokens cacheCreationTokens cacheReadTokens outputTokens apiCallCount : Nat)
      (subagentTokens : Option TokenUsage)

/-- Projection: fresh input tokens. -/
def TokenUsage.inputTokens : TokenUsage → Nat
  | .mk a _ _ _ _ _ => a

/-- Projection: cache-creation tokens. -/
def TokenUsage.cacheCreationTokens : TokenUsage → Nat
  | .mk _ a _ _ _ _ => a

/-- Projection: cache-read tokens. -/
def TokenUsage.cacheReadTokens : TokenUsage → Nat
  | .mk _ _ a _ _ _ => a

/-- Projection: output tokens. -/
def TokenUsage.outputTokens : TokenUsage → Nat
  | .mk _ _ _ a _ _ => a

/-- Projection: number of API calls. -/
def TokenUsage.apiCallCount : TokenUsage → Nat
  | .mk _ _ _ _ a _ => a

/-- Projection: nested subagent usage, when attached. -/
def TokenUsage.subagentTokens : TokenUsage → Option TokenUsage
  | .mk _ _ _ _ _ s => s

/-- `emptyTokenUsage()` from `types.ts`: all counters zero, no subagent usage. -/
def emptyTokenUsage : TokenUsage := .mk 0 0 0 0 0 none

/-- Adds the five numeric fields of `b` onto `a`
(the `subagentUsage.x += agentUsage.x` statements in `calculateTotalTokenUsage`);
the accumulator's own `subagentTokens` field is untouched. -/
def addUsageCounts (a b : TokenUsage) : TokenUsage :=
  .mk (a.inputTokens + b.inputTokens)
    (a.cacheCreationTokens + b.cacheCreationTokens)
    (a.cacheReadTokens + b.cacheReadTokens)
    (a.outputTokens + b.outputTokens)
    (a.apiCallCount + b.apiCallCount)
    a.subagentTokens

/-- Attaches a nested subagent usage
(the `mainUsage.subagentTokens = subagentUsage` assignment). -/
def withSubagent (a sub : TokenUsage) : TokenUsage :=
  .mk a.inputTokens a.cacheCreationTokens a.cacheReadTokens a.outputTokens
    a.apiCallCount (some sub)

-- ============================================================================
-- Chunking and reassembly (chunking module).
-- ============================================================================

/-- The data carried by the error `chunkJSONL` throws for an unsplittable line:
the 1-based line number, the size of the line with its separator, and the
configured maximum (the three values interpolated into the thrown message). -/
structure ChunkError where
  lineNumber : Nat
  lineSize : Nat
  maxChunkSize : Nat
deriving DecidableEq

/-- Model of `currentChunk.replace(/\n$/, "")`: removes one trailing newline. -/
def trimTrailingNl (s : Str) : Str :=
  if s.getLast? = some '\n' then s.dropLast else s

/-- The accumulation loop of `chunkJSONL`: walks the lines carrying the chunks
sealed so far and the chunk under construction, sealing before a line that
would overflow, and failing on a line that cannot fit in any chunk.
`i` is the 0-based index of the next line (errors report `i + 1`). -/
def chunkLoop (maxSize : Nat) :
    List Str → Nat → List Str → Str → Except ChunkError (List Str)
  | [], _, chunks, current =>
      if current.length > 0 then .ok (chunks ++ [trimTrailingNl current]) else .ok chunks
  | l :: rest, i, chunks, current =>
      let lw := l ++ ['\n']
      if lw.length > maxSize then
        .error ⟨i + 1, lw.length, maxSize⟩
      else if current.length + lw.length > maxSize ∧ current.length > 0 then
        chunkLoop maxSize rest (i + 1) (chunks ++ [trimTrailingNl current]) lw
      else
        chunkLoop maxSize rest (i + 1) chunks (current ++ lw)

/-- `chunkJSONL` from the chunking module: splits JSONL content at line
boundaries; empty content yields no chunks; a single oversized line is an
error. -/
def chunkJSONL (content : Str) (maxSize : Nat) : Except ChunkError (List Str) :=
  if content = [] then .ok []
  else chunkLoop maxSize (content.splitOn '\n') 0 [] []

/-- `reassembleJSONL`: newline-joined concatenation of the chunks. -/
def reassembleJSONL (chunks : List Str) : Str :=
  List.intercalate ['\n'] chunks

/-- The list of lines `chunkJSONL` examines: none for empty content, the
newline-split of the content otherwise. -/
def jsonlLines (content : Str) : List Str :=
  if content = [] then [] else content.splitOn '\n'

/-- The message-accumulation loop of `chunkGeminiJSON`: groups messages into
chunks, tracking the serialized size of the wrapper plus the accumulated
messages; `sz m` models `JSON.stringify(msg).length` and `15` is the length of
the empty wrapper `'{"messages":[]}'`. -/
def gemLoop (sz : α → Nat) (maxSize : Nat) :
    List α → List (List α) → List α → Nat → List (List α)
  | [], chunks, cur, _ =>
      if cur.length > 0 then chunks ++ [cur] else chunks
  | m :: rest, chunks, cur, curSize =>
      let added := sz m + (if cur.length > 0 then 1 else 0)
      if curSize + added > maxSize ∧ cur.length > 0 then
        gemLoop sz maxSize rest (chunks ++ [cur]) [m] (15 + added)
      else
        gemLoop sz maxSize rest chunks (cur ++ [m]) (curSize + added)

/-- The grouping performed by `chunkGeminiJSON` once the document is parsed:
messages are accumulated in order into wrapper-sized chunks. -/
def chunkGeminiMessages (sz : α → Nat) (maxSize : Nat) (msgs : List α) : List (List α) :=
  gemLoop sz maxSize msgs [] [] 15

/-- `chunkGeminiJSON` at the string level. `parseMsgs` models
`JSON.parse(content).messages` (`none` for a parse failure, which the source
surfaces as a thrown exception) and `serChunk` models
`JSON.stringify({messages: ...})`; messages themselves are opaque (`unknown[]`
in the source), so their type is a parameter. -/
def chunkGeminiJSONStr (parseMsgs : Str → Option (List α)) (serChunk : List α → Str)
    (sz : α → Nat) (content : Str) (maxSize : Nat) : Option (List Str) :=
  if content.length ≤ maxSize then some [content]
  else
    match parseMsgs content with
    | none => none
    | some msgs => some ((chunkGeminiMessages sz maxSize msgs).map serChunk)

/-- The chunk-parsing loop of `reassembleGeminiJSON`: parses every chunk in
order, failing as a whole if any single parse fails (the thrown exception). -/
def parseAllChunks (parseMsgs : Str → Option (List α)) : List Str → Option (List (List α))
  | [] => some []
  | c :: rest =>
      match parseMsgs c with
      | none => none
      | some ms => (parseAllChunks parseMsgs rest).map (fun ls => ms :: ls)

/-- `reassembleGeminiJSON` at the string level: no chunks yields the empty
wrapper, a single chunk is returned verbatim, and otherwise every chunk is
parsed and the message lists are concatenated into one wrapper document. -/
def reassembleGeminiJSONStr (parseMsgs : Str → Option (List α)) (serChunk : List α → Str)
    (chunks : List Str) : Option Str :=
  match chunks with
  | [] => some (serChunk [])
  | [c] => some c
  | _ =>
      (parseAllChunks parseMsgs chunks).map (fun ls => serChunk ls.flatten)

-- ============================================================================
-- Format detection (detectAgentTypeFromContent).
-- ============================================================================

/-- A JSON value, as returned by a successful `JSON.parse`. -/
inductive Json : Type where
  | null
  | bool (b : Bool)
  | num (n : Int)
  | str (s : Str)
  | arr (elems : List Json)
  | obj (fields : List (Str × Json))

/-- Field lookup on a parsed JSON value: `parsed.messages` followed by the
`Array.isArray` check — `some` exactly when the value is an object whose
`messages` field is an array. -/
def jsonGetMessages : Json → Option (List Json)
  | .obj fields =>
      match fields.find? (fun f => decide (f.1 = ("messages".data : Str))) with
      | some f =>
          match f.2 with
          | .arr ms => some ms
          | _ => none
      | none => none
  | _ => none

/-- The `AgentType` string returned for the message-array format. -/
def geminiCLI : Str := "Gemini CLI".data

/-- `detectAgentTypeFromContent`: trims leading whitespace, classifies as the
message-array format (`"Gemini CLI"`) only when the content starts with `{`,
parses as JSON, and carries a non-empty array-valued `messages` field;
`jparse` models `JSON.parse` (`none` for the caught parse failure). -/
def detectAgentTypeFromContent (jparse : Str → Option Json) (content : Str) : Option Str :=
  let trimmed := trimStartL content
  if isPrefixL ['\x7b'] trimmed then
    match jparse trimmed with
    | some j =>
        match jsonGetMessages j with
        | some ms => if ms.length > 0 then some geminiCLI else none
        | none => none
    | none => none
  else none

/-- The failure cases of the auto-detecting chunk entry point: an unsplittable
JSONL line, or a Gemini document that fails to parse. -/
inductive ChunkFailure where
  | lineTooLarge (e : ChunkError)
  | geminiParseError
deriving DecidableEq

/-- `chunkTranscript`: content at or under the limit is returned as a single
chunk; otherwise the format is the explicit hint or else detected from the
content, and the matching chunker runs. `detect` is the detector applied to
the content and `gemChunk` the string-level Gemini chunker, both passed as
parameters so this wiring function is independent of their embeddings. -/
def chunkTranscript (detect : Str → Option Str) (gemChunk : Str → Nat → Option (List Str))
    (content : Str) (agentType : Option Str) (maxSize : Nat) :
    Except ChunkFailure (List Str) :=
  if content.length ≤ maxSize then .ok [content]
  else
    let detected := match agentType with
      | some t => some t
      | none => detect content
    if detected = some geminiCLI then
      match gemChunk content maxSize with
      | some cs => .ok cs
      | none => .error .geminiParseError
    else
      (chunkJSONL content maxSize).mapError ChunkFailure.lineTooLarge

-- ============================================================================
-- Chunk filename scheme (chunkFileName / parseChunkIndex).
-- ============================================================================

/-- Decimal digit string of a natural number (model of JavaScript
`String(index)` for a non-negative integer). -/
def natToDigits (n : Nat) : Str :=
  if h : n < 10 then [Char.ofNat (48 + n)]
  else natToDigits (n / 10) ++ [Char.ofNat (48 + n % 10)]
decreasing_by
  exact Nat.div_lt_self (by omega) (by omega)

/-- Model of `String.prototype.padStart(3, "0")`. -/
def padStart3 (s : Str) : Str :=
  List.replicate (3 - s.length) '0' ++ s

/-- `chunkFileName`: index 0 keeps the base name, index `n ≥ 1` appends a dot
and the zero-padded 3-digit index. -/
def chunkFileName (baseName : Str) (index : Nat) : Str :=
  if index = 0 then baseName
  else baseName ++ '.' :: padStart3 (natToDigits index)

/-- Decimal digit test. -/
def isDigitCh (c : Char) : Bool := '0' ≤ c && c ≤ '9'

/-- Numeric value of a decimal digit character. -/
def digitVal (c : Char) : Nat := c.toNat - 48

/-- Value of the leading run of decimal digits; `none` when there is none
(the `NaN` case of `parseInt`). -/
def parseDigits (s : Str) : Option Nat :=
  let ds := s.takeWhile isDigitCh
  if ds = [] then none
  else some (ds.foldl (fun a c => 10 * a + digitVal c) 0)

/-- Model of JavaScript `parseInt(s, 10)`: leading whitespace skipped, an
optional sign, then the leading run of decimal digits; trailing garbage is
ignored and no digits at all gives `none` (`NaN`). -/
def parseIntDec (s : Str) : Option Int :=
  let t := s.dropWhile isJSWhitespace
  match t with
  | [] => none
  | c :: r =>
      if c = '-' then (parseDigits r).map (fun n => -(n : Int))
      else if c = '+' then (parseDigits r).map (fun n => (n : Int))
      else (parseDigits (c :: r)).map (fun n => (n : Int))

/-- `parseChunkIndex`: the base name itself is index 0, a `base.suffix` name
parses its suffix with `parseInt`, and anything else is the sentinel `-1`. -/
def parseChunkIndex (filename baseName : Str) : Int :=
  if filename = baseName then 0
  else if isPrefixL (baseName ++ ['.']) filename then
    match parseIntDec (filename.drop (baseName.length + 1)) with
    | some i => i
    | none => -1
  else -1

-- ============================================================================
-- Claude (line-delimited JSONL) transcript model.
-- Strings standing in for JavaScript falsy checks use `[]` for ""/missing.
-- ============================================================================

namespace Claude

/-- A usage payload row (`message.usage` on an assistant line). -/
structure UsageRow where
  input_tokens : Nat
  cache_creation_input_tokens : Nat
  cache_read_input_tokens : Nat
  output_tokens : Nat
deriving DecidableEq

/-- An element of a `tool_result` block's array-valued `content`
(the `{type, text}` objects scanned for spawned-agent markers);
an empty `text` models a missing or empty (falsy) field. -/
structure TB where
  type : ASP.Str
  text : ASP.Str
deriving DecidableEq

/-- The `content` field of a `tool_result` block: an array of text blocks, a
flat string, or anything else (`unknown` in the source). -/
inductive ToolResultContent : Type where
  | arr (tbs : List TB)
  | str (s : ASP.Str)
  | other
deriving DecidableEq

/-- A content block inside a message's array-valued `content`; only the fields
the functions under study consult are modelled. An empty `tool_use_id` models
a missing (falsy) field. -/
structure ContentBlock where
  type : ASP.Str
  text : ASP.Str
  name : ASP.Str
  tool_use_id : ASP.Str
  content : ToolResultContent
deriving DecidableEq

/-- A message's `content`: a flat string, an array of blocks, or anything
else. -/
inductive MsgContent : Type where
  | str (s : ASP.Str)
  | blocks (bs : List ContentBlock)
  | other
deriving DecidableEq

/-- The nested `message` payload of a transcript line, with the fields the
aggregators consult: an empty `id` models a missing (falsy) identifier. -/
structure ClaudeMessage where
  id : ASP.Str
  usage : Option UsageRow
  content : MsgContent
deriving DecidableEq

/-- A parsed JSONL transcript line (`TranscriptLine` from the Claude types):
`message` is `none` when the payload is absent or not an object. -/
structure TranscriptLine where
  type : ASP.Str
  uuid : ASP.Str
  message : Option ClaudeMessage
deriving DecidableEq

/-- `parseFromString`: newline-split, trim, skip blank lines, parse each line
independently and drop lines that fail to parse. `jp` models `JSON.parse`
applied to one trimmed line (`none` for the caught failure). -/
def parseFromString (jp : ASP.Str → Option TranscriptLine) (content : ASP.Str) :
    List TranscriptLine :=
  (content.splitOn '\n').filterMap (fun raw =>
    let t := ASP.trimL raw
    if t = [] then none else jp t)

/-- The loop of `parseFromStringAtLine`: blank lines are skipped before the
counter advances, parsed lines are kept once the counter reaches
`startLine`, and malformed lines advance the counter without contributing. -/
def pfsalLoop (jp : ASP.Str → Option TranscriptLine) (startLine : Nat) :
    List ASP.Str → Nat → List TranscriptLine → List TranscriptLine × Nat
  | [], total, acc => (acc, total)
  | raw :: rest, total, acc =>
      let t := ASP.trimL raw
      if t = [] then pfsalLoop jp startLine rest total acc
      else
        let acc2 :=
          if startLine ≤ total then
            match jp t with
            | some p => acc ++ [p]
            | none => acc
          else acc
        pfsalLoop jp startLine rest (total + 1) acc2

/-- `parseFromStringAtLine`: parses from a 0-indexed starting line, returning
the parsed lines from that point on and the total count of lines scanned. -/
def parseFromStringAtLine (jp : ASP.Str → Option TranscriptLine) (content : ASP.Str)
    (startLine : Nat) : List TranscriptLine × Nat :=
  pfsalLoop jp startLine (content.splitOn '\n') 0 []

/-- The trimmed non-blank lines of a content string, in order: the lines the
counter of `parseFromStringAtLine` actually advances over. -/
def nonBlankLines (content : ASP.Str) : List ASP.Str :=
  ((content.splitOn '\n').map ASP.trimL).filter (fun t => decide (t ≠ []))

/-- The qualifying usage rows of `calculateTokenUsage`: assistant lines whose
message carries both a (non-falsy) `id` and a `usage` payload, keyed by id. -/
def qualRows (lines : List TranscriptLine) : List (ASP.Str × UsageRow) :=
  lines.filterMap (fun l =>
    if l.type = "assistant".data then
      match l.message with
      | some m =>
          if m.id = [] then none
          else
            match m.usage with
            | some u => some (m.id, u)
            | none => none
      | none => none
    else none)

/-- Lookup in the insertion-ordered map modelling the JavaScript `Map`. -/
def lookupRow : List (ASP.Str × UsageRow) → ASP.Str → Option UsageRow
  | [], _ => none
  | p :: rest, id => if p.1 = id then some p.2 else lookupRow rest id

/-- One step of the dedup loop: a new id is appended, an existing id is
replaced in place only when the incoming row's `output_tokens` is strictly
greater (JavaScript `Map.set` keeps the original insertion position). -/
def usageMapInsert (m : List (ASP.Str × UsageRow)) (id : ASP.Str) (u : UsageRow) :
    List (ASP.Str × UsageRow) :=
  match lookupRow m id with
  | none => m ++ [(id, u)]
  | some ex =>
      if ex.output_tokens < u.output_tokens then
        m.map (fun p => if p.1 = id then (id, u) else p)
      else m

/-- The streaming-dedup accumulation of `calculateTokenUsage`: the rows are
folded into the id-keyed map. -/
def dedupUsage (rows : List (ASP.Str × UsageRow)) : List (ASP.Str × UsageRow) :=
  rows.foldl (fun m p => usageMapInsert m p.1 p.2) []

/-- `calculateTokenUsage` (Claude): deduplicates the qualifying usage rows by
message id, then sums the four numeric fields over the retained rows;
`apiCallCount` is the number of retained ids. -/
def calculateTokenUsage (lines : List TranscriptLine) : ASP.TokenUsage :=
  let m := dedupUsage (qualRows lines)
  .mk ((m.map (fun p => p.2.input_tokens)).sum)
    ((m.map (fun p => p.2.cache_creation_input_tokens)).sum)
    ((m.map (fun p => p.2.cache_read_input_tokens)).sum)
    ((m.map (fun p => p.2.output_tokens)).sum)
    m.length
    none

/-- The marker searched for inside tool-result text. -/
def agentIdMarker : ASP.Str := "agentId: ".data

/-- Alphanumeric test (`/[a-zA-Z0-9]/`). -/
def isAlphaNum (c : Char) : Bool :=
  ('a' ≤ c && c ≤ 'z') || ('A' ≤ c && c ≤ 'Z') || ('0' ≤ c && c ≤ '9')

/-- `extractAgentIdFromText`: unanchored search for the marker, then the run
of alphanumeric characters after it; `none` when the marker is absent or the
run is empty. -/
def extractAgentIdFromText (text : ASP.Str) : Option ASP.Str :=
  match ASP.findSub agentIdMarker text with
  | none => none
  | some idx =>
      let ids := (text.drop (idx + agentIdMarker.length)).takeWhile isAlphaNum
      if ids = [] then none else some ids

/-- The text assembled from a `tool_result` block's content: array content
concatenates the non-empty `text` of its `"text"` elements each followed by a
newline, string content is used as is, anything else gives the empty text. -/
def toolResultText : ToolResultContent → ASP.Str
  | .arr tbs =>
      ((tbs.filter (fun tb =>
        tb.type = "text".data && tb.text ≠ [])).map (fun tb => tb.text ++ ['\n'])).flatten
  | .str s => s
  | .other => []

/-- Insertion-ordered map update with JavaScript `Map.set` semantics: an
existing key keeps its position and gets the new value, a new key is
appended. -/
def mapSet (m : List (ASP.Str × ASP.Str)) (k v : ASP.Str) : List (ASP.Str × ASP.Str) :=
  if m.any (fun p => p.1 = k) then
    m.map (fun p => if p.1 = k then (k, v) else p)
  else m ++ [(k, v)]

/-- The per-line step of `extractSpawnedAgentIds`: scans the tool-result
blocks of a user line's array content for embedded agent-id markers. -/
def spawnedStep (m : List (ASP.Str × ASP.Str)) (l : TranscriptLine) :
    List (ASP.Str × ASP.Str) :=
  if l.type = "user".data then
    match l.message with
    | some msg =>
        match msg.content with
        | .blocks bs =>
            bs.foldl (fun m b =>
              if b.type = "tool_result".data then
                match extractAgentIdFromText (toolResultText b.content) with
                | some aid => if b.tool_use_id ≠ [] then mapSet m aid b.tool_use_id else m
                | none => m
              else m) m
        | _ => m
    | none => m
  else m

/-- `extractSpawnedAgentIds`: the insertion-ordered map from discovered agent
id to the originating `tool_use_id`. -/
def extractSpawnedAgentIds (lines : List TranscriptLine) : List (ASP.Str × ASP.Str) :=
  lines.foldl spawnedStep []

/-- The per-id step of the subagent loop in `calculateTotalTokenUsage`: a
loader miss (or falsy empty content) leaves the accumulator unchanged,
otherwise the subagent transcript is parsed, its usage computed, its five
numeric fields added on, and the has-data flag set. -/
def subagentStep (jp : ASP.Str → Option TranscriptLine)
    (loader : ASP.Str → Option ASP.Str) (acc : ASP.TokenUsage × Bool) (agentId : ASP.Str) :
    ASP.TokenUsage × Bool :=
  match loader agentId with
  | none => acc
  | some content =>
      if content = [] then acc
      else
        let au := calculateTokenUsage (parseFromString jp content)
        (ASP.addUsageCounts acc.1 au, true)

/-- `calculateTotalTokenUsage`: the main usage of the transcript, with a
nested subagent total attached only when at least one discovered subagent's
transcript was actually loaded. -/
def calculateTotalTokenUsage (jp : ASP.Str → Option TranscriptLine)
    (lines : List TranscriptLine) (loader : ASP.Str → Option ASP.Str) : ASP.TokenUsage :=
  let mainUsage := calculateTokenUsage lines
  let agentIds := (extractSpawnedAgentIds lines).map (fun p => p.1)
  if agentIds.length > 0 then
    let sh := agentIds.foldl (subagentStep jp loader) (ASP.emptyTokenUsage, false)
    if sh.2 then ASP.withSubagent mainUsage sh.1 else mainUsage
  else mainUsage

end Claude

-- ============================================================================
-- Spec-side definitions (written from the specification's words, for the
-- refinement statements about the Claude aggregator).
-- ============================================================================

namespace ClaudeSpec

/-- The maximum output-token value among a list of usage rows. -/
def specMaxOutput (rs : List Claude.UsageRow) : Nat :=
  (rs.map (fun r => r.output_tokens)).foldr max 0

/-- The row the specification says is kept for one identifier: the first row
seen whose output-token value attains the maximum (ties keep the first
seen). -/
def specRetained (rs : List Claude.UsageRow) : Option Claude.UsageRow :=
  rs.find? (fun r => decide (r.output_tokens = specMaxOutput rs))

/-- The distinct identifiers of the rows, in first-seen order. -/
def specKeys (rows : List (ASP.Str × Claude.UsageRow)) : List ASP.Str :=
  rows.foldl (fun ks p => if p.1 ∈ ks then ks else ks ++ [p.1]) []

/-- The rows carrying one identifier, in order. -/
def specRowsFor (rows : List (ASP.Str × Claude.UsageRow)) (id : ASP.Str) :
    List Claude.UsageRow :=
  (rows.filter (fun p => decide (p.1 = id))).map (fun p => p.2)

/-- The spec's streaming example: two assistant rows sharing one message id
with output-token counts 10 and 50. -/
def streamingExampleLines : List Claude.TranscriptLine :=
  [⟨"assistant".data, "u1".data, some ⟨"m1".data, some ⟨100, 5, 7, 10⟩, .other⟩⟩,
   ⟨"assistant".data, "u2".data, some ⟨"m1".data, some ⟨100, 5, 7, 50⟩, .other⟩⟩]

/-- A concrete single-line parser for counterexample inputs: the line `"x"`
parses to one user record, everything else is malformed. -/
def exampleLineParser (t : ASP.Str) : Option Claude.TranscriptLine :=
  if t = ['x'] then some ⟨"user".data, "u1".data, none⟩ else none

/-- The subagent transcripts a loader actually yields, in discovery order:
loader misses and falsy empty contents are skipped. -/
def loadedContents (loader : ASP.Str → Option ASP.Str) (ids : List ASP.Str) :
    List ASP.Str :=
  ids.filterMap (fun id =>
    match loader id with
    | some c => if c = [] then none else some c
    | none => none)

/-- Field-wise sum of a list of usages (all five numeric fields, the API call
count included), as the specification describes the nested subagent total. -/
def sumUsages (us : List ASP.TokenUsage) : ASP.TokenUsage :=
  us.foldl ASP.addUsageCounts ASP.emptyTokenUsage

end ClaudeSpec

-- ============================================================================
-- Gemini (message-array) transcript model.
-- ============================================================================

namespace Gemini

/-- The `tokens` payload of a Gemini message. -/
structure GeminiMessageTokens where
  input : Nat
  output : Nat
  cached : Nat
  thoughts : Nat
  tool : Nat
  total : Nat
deriving DecidableEq

/-- A message of a Gemini transcript, with the fields the token extractor
consults. -/
structure GeminiMessage where
  type : ASP.Str
  tokens : Option GeminiMessageTokens
deriving DecidableEq

/-- A Gemini transcript: the ordered message list. -/
structure GeminiTranscript where
  messages : List GeminiMessage
deriving DecidableEq

/-- The step of the Gemini token loop: a gemini-type message with a tokens
payload counts one API call and contributes its input, output and cached
fields. -/
def tokenStep (u : ASP.TokenUsage) (m : GeminiMessage) : ASP.TokenUsage :=
  if m.type = "gemini".data then
    match m.tokens with
    | some tk =>
        .mk (u.inputTokens + tk.input) u.cacheCreationTokens
          (u.cacheReadTokens + tk.cached) (u.outputTokens + tk.output)
          (u.apiCallCount + 1) u.subagentTokens
    | none => u
  else u

/-- `calculateTokenUsage` (Gemini): scans the messages from
`startMessageIndex` onward, counting only gemini-type messages with a tokens
payload. -/
def calculateTokenUsage (t : GeminiTranscript) (startMessageIndex : Nat) : ASP.TokenUsage :=
  (t.messages.drop startMessageIndex).foldl tokenStep ASP.emptyTokenUsage

/-- The tokens payloads the Gemini extractor counts: those of gemini-type
messages from the start index onward, in order. -/
def countedTokens (t : GeminiTranscript) (startMessageIndex : Nat) :
    List GeminiMessageTokens :=
  (t.messages.drop startMessageIndex).filterMap (fun m =>
    if m.type = "gemini".data then m.tokens else none)

end Gemini

-- ============================================================================
-- Theorems.
-- ============================================================================

@[simp]
theorem TokenUsage.inputTokens_mk (a b c d e : Nat) (s : Option TokenUsage) :
    (TokenUsage.mk a b c d e s).inputTokens = a := rfl

@[simp]
theorem TokenUsage.cacheCreationTokens_mk (a b c d e : Nat) (s : Option TokenUsage) :
    (TokenUsage.mk a b c d e s).cacheCreationTokens = b := rfl

@[simp]
theorem TokenUsage.cacheReadTokens_mk (a b c d e : Nat) (s : Option TokenUsage) :
    (TokenUsage.mk a b c d e s).cacheReadTokens = c := rfl

@[simp]
theorem TokenUsage.outputTokens_mk (a b c d e : Nat) (s : Option TokenUsage) :
    (TokenUsage.mk a b c d e s).outputTokens = d := rfl

@[simp]
theorem TokenUsage.apiCallCount_mk (a b c d e : Nat) (s : Option TokenUsage) :
    (TokenUsage.mk a b c d e s).apiCallCount = e := rfl

@[simp]
theorem TokenUsage.subagentTokens_mk (a b c d e : Nat) (s : Option TokenUsage) :
    (TokenUsage.mk a b c d e s).subagentTokens = s := rfl

/-- Eta rule for the usage tuple. -/
theorem TokenUsage.eta (u : TokenUsage) :
    TokenUsage.mk u.inputTokens u.cacheCreationTokens u.cacheReadTokens u.outputTokens
      u.apiCallCount u.subagentTokens = u := by
  cases u
  rfl

/-- The Gemini token fold, characterized over any starting accumulator: each
gemini-type message with a tokens payload adds its `input`, `output` and
`cached` fields and one API call; nothing else changes. -/
theorem gemini_tokenStep_fold (ms : List Gemini.GeminiMessage) : ∀ u0 : TokenUsage,
    ms.foldl Gemini.tokenStep u0 =
      TokenUsage.mk
        (u0.inputTokens +
          ((ms.filterMap (fun m => if m.type = "gemini".data then m.tokens else none)).map
            (fun tk => tk.input)).sum)
        u0.cacheCreationTokens
        (u0.cacheReadTokens +
          ((ms.filterMap (fun m => if m.type = "gemini".data then m.tokens else none)).map
            (fun tk => tk.cached)).sum)
        (u0.outputTokens +
          ((ms.filterMap (fun m => if m.type = "gemini".data then m.tokens else none)).map
            (fun tk => tk.output)).sum)
        (u0.apiCallCount +
          (ms.filterMap (fun m => if m.type = "gemini".data then m.tokens else none)).length)
        u0.subagentTokens := by
  induction ms with
  | nil =>
      intro u0
      simp only [List.foldl_nil, List.filterMap_nil, List.map_nil, List.sum_nil,
        List.length_nil, Nat.add_zero]
      exact (TokenUsage.eta u0).symm
  | cons m ms ih =>
      intro u0
      cases hf : (if m.type = "gemini".data then m.tokens else none) with
      | none =>
          have hstep : Gemini.tokenStep u0 m = u0 := by
            by_cases hm : m.type = "gemini".data
            · have htk : m.tokens = none := by simpa [hm] using hf
              simp [Gemini.tokenStep, hm, htk]
            · simp [Gemini.tokenStep, hm]
          rw [List.foldl_cons, hstep, ih u0]
          simp only [List.filterMap_cons, hf]
      | some tk =>
          have hm : m.type = "gemini".data := by
            by_contra hm
            simp [hm] at hf
          have htk : m.tokens = some tk := by simpa [hm] using hf
          have hstep : Gemini.tokenStep u0 m =
              TokenUsage.mk (u0.inputTokens + tk.input) u0.cacheCreationTokens
                (u0.cacheReadTokens + tk.cached) (u0.outputTokens + tk.output)
                (u0.apiCallCount + 1) u0.subagentTokens := by
            simp [Gemini.tokenStep, hm, htk]
          rw [List.foldl_cons, hstep, ih]
          simp only [List.filterMap_cons, hf, List.map_cons, List.sum_cons,
            List.length_cons, TokenUsage.inputTokens_mk, TokenUsage.cacheCreationTokens_mk,
            TokenUsage.cacheReadTokens_mk, TokenUsage.outputTokens_mk,
            TokenUsage.apiCallCount_mk, TokenUsage.subagentTokens_mk, TokenUsage.mk.injEq]
          and_intros <;> first | trivial | omega

/-- C10: the Gemini `calculateTokenUsage` always returns zero
`cacheCreationTokens` and no `subagentTokens`; its input, output and
cache-read totals are the sums of the `input`, `output` and `cached` fields of
the counted gemini-type messages from the start index onward, and the API call
count is the number of such messages — so the `thoughts`, `tool` and `total`
fields of the token payload never contribute. -/
theorem gemini_calculateTokenUsage_spec (t : Gemini.GeminiTranscript)
    (startMessageIndex : Nat) :
    (Gemini.calculateTokenUsage t startMessageIndex).cacheCreationTokens = 0 ∧
    (Gemini.calculateTokenUsage t startMessageIndex).subagentTokens = none ∧
    (Gemini.calculateTokenUsage t startMessageIndex).inputTokens =
      ((Gemini.countedTokens t startMessageIndex).map (fun tk => tk.input)).sum ∧
    (Gemini.calculateTokenUsage t startMessageIndex).outputTokens =
      ((Gemini.countedTokens t startMessageIndex).map (fun tk => tk.output)).sum ∧
    (Gemini.calculateTokenUsage t startMessageIndex).cacheReadTokens =
      ((Gemini.countedTokens t startMessageIndex).map (fun tk => tk.cached)).sum ∧
    (Gemini.calculateTokenUsage t startMessageIndex).apiCallCount =
      (Gemini.countedTokens t startMessageIndex).length := by
  unfold Gemini.calculateTokenUsage Gemini.countedTokens
  rw [gemini_tokenStep_fold]
  simp [emptyTokenUsage]

/-- C8: `detectAgentTypeFromContent` classifies content as the message-array
format (`"Gemini CLI"`) exactly when, after trimming leading whitespace, the
content starts with `{`, parses as JSON, and exposes a non-empty array-valued
`messages` field; in every other case it returns the line-delimited fallback
(`none`), and being a total function it never throws. -/
theorem detectAgentTypeFromContent_spec (jparse : Str → Option Json) (content : Str) :
    (detectAgentTypeFromContent jparse content = some geminiCLI ↔
      (isPrefixL ['\x7b'] (trimStartL content) = true ∧
        ∃ j ms, jparse (trimStartL content) = some j ∧
          jsonGetMessages j = some ms ∧ ms ≠ [])) ∧
    (∀ r, detectAgentTypeFromContent jparse content = some r → r = geminiCLI) := by
  by_cases hp : isPrefixL ['\x7b'] (trimStartL content) = true
  · cases hj : jparse (trimStartL content) with
    | none => simp [detectAgentTypeFromContent, hp, hj]
    | some j =>
        cases hm : jsonGetMessages j with
        | none => simp [detectAgentTypeFromContent, hp, hj, hm]
        | some ms =>
            by_cases hlen : ms = []
            · subst hlen
              simp [detectAgentTypeFromContent, hp, hj, hm]
            · simp [detectAgentTypeFromContent, hp, hj, hm, hlen, List.length_pos]
  · simp [detectAgentTypeFromContent, hp]

theorem natToDigits_ne_nil (n : Nat) : natToDigits n ≠ [] := by
  rw [natToDigits]
  split
  · simp
  · simp

theorem natToDigits_all_digits (n : Nat) : ∀ c ∈ natToDigits n, isDigitCh c = true := by
  induction n using Nat.strong_induction_on with
  | _ n ih =>
      rw [natToDigits]
      split
      · rename_i h
        intro c hc
        simp only [List.mem_singleton] at hc
        subst hc
        interval_cases n <;> decide
      · rename_i h
        intro c hc
        rw [List.mem_append] at hc
        rcases hc with hc | hc
        · exact ih (n / 10) (Nat.div_lt_self (by omega) (by omega)) c hc
        · simp only [List.mem_singleton] at hc
          subst hc
          have hr : n % 10 < 10 := Nat.mod_lt _ (by omega)
          set r := n % 10 with hrdef
          interval_cases r <;> decide

theorem natToDigits_foldl (n : Nat) : ∀ acc : Nat,
    (natToDigits n).foldl (fun a c => 10 * a + digitVal c) acc =
      acc * 10 ^ (natToDigits n).length + n := by
  induction n using Nat.strong_induction_on with
  | _ n ih =>
      intro acc
      rw [natToDigits]
      split
      · rename_i h
        have hd : digitVal (Char.ofNat (48 + n)) = n := by
          interval_cases n <;> decide
        simp [List.foldl, hd]
        ring
      · rename_i h
        have hr : n % 10 < 10 := Nat.mod_lt _ (by omega)
        have hd : digitVal (Char.ofNat (48 + n % 10)) = n % 10 := by
          set r := n % 10 with hrdef
          interval_cases r <;> decide
        have hdm : 10 * (n / 10) + n % 10 = n := Nat.div_add_mod n 10
        rw [List.foldl_append, ih (n / 10) (Nat.div_lt_self (by omega) (by omega)) acc]
        simp only [List.foldl, List.length_append, List.length_singleton, hd, pow_succ]
        set L := (natToDigits (n / 10)).length
        set q := n / 10
        set r := n % 10
        rw [← hdm]
        ring

theorem replicate_zero_foldl (k : Nat) :
    (List.replicate k '0').foldl (fun a c => 10 * a + digitVal c) 0 = 0 := by
  induction k with
  | zero => rfl
  | succ k ih => simpa [List.replicate_succ, digitVal] using ih

theorem padStart3_natToDigits_foldl (n : Nat) :
    (padStart3 (natToDigits n)).foldl (fun a c => 10 * a + digitVal c) 0 = n := by
  unfold padStart3
  rw [List.foldl_append, replicate_zero_foldl, natToDigits_foldl]
  simp

theorem padStart3_all_digits (n : Nat) :
    ∀ c ∈ padStart3 (natToDigits n), isDigitCh c = true := by
  intro c hc
  unfold padStart3 at hc
  rw [List.mem_append] at hc
  rcases hc with hc | hc
  · rw [List.eq_of_mem_replicate hc]
    decide
  · exact natToDigits_all_digits n c hc

theorem padStart3_ne_nil (n : Nat) : padStart3 (natToDigits n) ≠ [] := by
  unfold padStart3
  intro h
  rcases List.append_eq_nil.mp h with ⟨_, h2⟩
  exact natToDigits_ne_nil n h2

theorem digit_excludes (c : Char) (h : isDigitCh c = true) :
    isJSWhitespace c = false ∧ c ≠ '-' ∧ c ≠ '+' := by
  have hb : ('0' ≤ c ∧ c ≤ '9') := by
    simpa [isDigitCh, Bool.and_eq_true, decide_eq_true_eq] using h
  have hlo : 48 ≤ c.toNat := hb.1
  have hhi : c.toNat ≤ 57 := hb.2
  refine ⟨?_, ?_, ?_⟩
  · simp only [isJSWhitespace, Bool.or_eq_false_iff, decide_eq_false_iff_not]
    refine ⟨⟨⟨⟨⟨?_, ?_⟩, ?_⟩, ?_⟩, ?_⟩, ?_⟩ <;>
      (intro hh; subst hh; simp_all)
  · intro hh
    subst hh
    simp_all
  · intro hh
    subst hh
    simp_all

theorem parseIntDec_digits (s : Str) (hne : s ≠ [])
    (hd : ∀ c ∈ s, isDigitCh c = true) :
    parseIntDec s = some (Int.ofNat (s.foldl (fun a c => 10 * a + digitVal c) 0)) := by
  obtain ⟨c, r, rfl⟩ := List.exists_cons_of_ne_nil hne
  have hc := hd c (List.mem_cons_self c r)
  obtain ⟨hws, hminus, hplus⟩ := digit_excludes c hc
  unfold parseIntDec
  have hdrop : (c :: r).dropWhile isJSWhitespace = c :: r := by
    rw [List.dropWhile_cons_of_neg]
    simp [hws]
  rw [hdrop]
  simp only [hminus, hplus, if_neg, if_false]
  unfold parseDigits
  have htw : (c :: r).takeWhile isDigitCh = c :: r :=
    List.takeWhile_eq_self_iff.mpr hd
  rw [htw]
  simp [hne]

/-- C9: the chunk filename scheme round-trips — `parseChunkIndex` recovers the
index from any `chunkFileName`-produced name (index 0 keeps the base name,
index `n ≥ 1` appends a dot and the zero-padded 3-digit index) — and any
filename that is neither the base name nor the base name plus a dot followed
by a `parseInt`-parseable suffix yields the sentinel `-1`. -/
theorem chunkFileName_parseChunkIndex_spec :
    (∀ (baseName : Str) (n : Nat),
      parseChunkIndex (chunkFileName baseName n) baseName = (n : Int)) ∧
    (∀ (filename baseName : Str), filename ≠ baseName →
      (isPrefixL (baseName ++ ['.']) filename = true →
        parseIntDec (filename.drop (baseName.length + 1)) = none) →
      parseChunkIndex filename baseName = -1) := by
  constructor
  · intro baseName n
    by_cases hn : n = 0
    · subst hn
      simp [chunkFileName, parseChunkIndex]
    · have hfile : chunkFileName baseName n =
          (baseName ++ ['.']) ++ padStart3 (natToDigits n) := by
        simp [chunkFileName, hn]
      have hne : (baseName ++ ['.']) ++ padStart3 (natToDigits n) ≠ baseName := by
        intro h
        have := congrArg List.length h
        simp at this
      have hpre : isPrefixL (baseName ++ ['.'])
          ((baseName ++ ['.']) ++ padStart3 (natToDigits n)) = true := by
        have hgen : ∀ (a b : Str), isPrefixL a (a ++ b) = true := by
          intro a
          induction a with
          | nil => intro b; rfl
          | cons x xs ih => intro b; simp [isPrefixL, ih]
        exact hgen _ _
      have hdrop : (((baseName ++ ['.']) ++ padStart3 (natToDigits n)).drop
          (baseName.length + 1)) = padStart3 (natToDigits n) := by
        have : baseName.length + 1 = (baseName ++ ['.']).length := by simp
        rw [this, List.drop_left]
      have hparse : parseIntDec (padStart3 (natToDigits n)) = some (n : Int) := by
        rw [parseIntDec_digits _ (padStart3_ne_nil n) (padStart3_all_digits n),
          padStart3_natToDigits_foldl]
        rfl
      rw [hfile, parseChunkIndex, if_neg hne, if_pos hpre, hdrop, hparse]
  · intro filename baseName hne himp
    rw [parseChunkIndex, if_neg hne]
    by_cases hpre : isPrefixL (baseName ++ ['.']) filename = true
    · rw [if_pos hpre, himp hpre]
    · rw [if_neg hpre]

/-- Witness for C9 at the spec's own examples: index 12 of base `t.jsonl`
round-trips, and `other.jsonl` is unrecognized. -/
theorem chunkFileName_parseChunkIndex_spec_witness :
    parseChunkIndex (chunkFileName "t.jsonl".data 12) "t.jsonl".data = 12 ∧
    parseChunkIndex "other.jsonl".data "t.jsonl".data = -1 :=
  ⟨chunkFileName_parseChunkIndex_spec.1 "t.jsonl".data 12,
   chunkFileName_parseChunkIndex_spec.2 "other.jsonl".data "t.jsonl".data
     (by decide) (by decide)⟩

/-- The parse-at-line loop, characterized over any counter and accumulator:
the counter advances over exactly the trimmed non-blank lines, and the kept
records are the parseable ones among the non-blank lines from position
`startLine - total` onward. -/
theorem pfsalLoop_spec (jp : Str → Option Claude.TranscriptLine) (startLine : Nat) :
    ∀ (raws : List Str) (total : Nat) (acc : List Claude.TranscriptLine),
    Claude.pfsalLoop jp startLine raws total acc =
      (acc ++ ((((raws.map trimL).filter (fun t => decide (t ≠ []))).drop
          (startLine - total)).filterMap jp),
        total + ((raws.map trimL).filter (fun t => decide (t ≠ []))).length) := by
  intro raws
  induction raws with
  | nil =>
      intro total acc
      simp [Claude.pfsalLoop]
  | cons raw rest ih =>
      intro total acc
      by_cases ht : trimL raw = []
      · have hstep : Claude.pfsalLoop jp startLine (raw :: rest) total acc =
            Claude.pfsalLoop jp startLine rest total acc := by
          simp [Claude.pfsalLoop, ht]
        rw [hstep, ih]
        simp [ht]
      · have htb : decide (trimL raw ≠ []) = true := by simp [ht]
        by_cases hsl : startLine ≤ total
        · have h0 : startLine - total = 0 := by omega
          have h1 : startLine - (total + 1) = 0 := by omega
          cases hjp : jp (trimL raw) with
          | some p =>
              have hstep : Claude.pfsalLoop jp startLine (raw :: rest) total acc =
                  Claude.pfsalLoop jp startLine rest (total + 1) (acc ++ [p]) := by
                simp [Claude.pfsalLoop, ht, hsl, hjp]
              rw [hstep, ih]
              simp [List.filter_cons, htb, h0, h1, hjp, ht]
              try omega
          | none =>
              have hstep : Claude.pfsalLoop jp startLine (raw :: rest) total acc =
                  Claude.pfsalLoop jp startLine rest (total + 1) acc := by
                simp [Claude.pfsalLoop, ht, hsl, hjp]
              rw [hstep, ih]
              simp [List.filter_cons, htb, h0, h1, hjp, ht]
              try omega
        · have hq : startLine - total = (startLine - (total + 1)) + 1 := by omega
          have hstep : Claude.pfsalLoop jp startLine (raw :: rest) total acc =
              Claude.pfsalLoop jp startLine rest (total + 1) acc := by
            simp [Claude.pfsalLoop, ht, hsl]
          rw [hstep, ih]
          simp [List.filter_cons, htb, hq, List.drop_succ_cons, ht]
          try omega

/-- C4 (amended): `parseFromStringAtLine` returns as its total the count of
trimmed non-blank lines (malformed lines included, blank lines excluded), and
returns exactly the well-formed records whose 0-indexed position among the
non-blank lines is at least `startLine`. -/
theorem parseFromStringAtLine_spec (jp : Str → Option Claude.TranscriptLine)
    (content : Str) (startLine : Nat) :
    Claude.parseFromStringAtLine jp content startLine =
      (((Claude.nonBlankLines content).drop startLine).filterMap jp,
        (Claude.nonBlankLines content).length) := by
  unfold Claude.parseFromStringAtLine Claude.nonBlankLines
  rw [pfsalLoop_spec]
  simp

/-- C4 counterexample: on the content `"\nx"` — a blank line followed by the
record line `x`, which the example parser reads as one user record —
`parseFromStringAtLine` with `startLine = 1` returns a total of 1 and no
records, whereas counting blank lines (as the claim states) would give a
total of 2 and would place the record at position 1, hence inside the
returned slice. -/
theorem parseFromStringAtLine_counterexample :
    Claude.parseFromStringAtLine ClaudeSpec.exampleLineParser ['\n', 'x'] 1 = ([], 1) ∧
    Claude.parseFromStringAtLine ClaudeSpec.exampleLineParser ['\n', 'x'] 1 ≠
      ([⟨"user".data, "u1".data, none⟩], 2) := by
  decide

theorem intercalate_single (s x : Str) : List.intercalate s [x] = x := by
  simp [List.intercalate]

theorem intercalate_cons_ne (s a : Str) (v : List Str) (hv : v ≠ []) :
    List.intercalate s (a :: v) = a ++ s ++ List.intercalate s v := by
  obtain ⟨b, v2, rfl⟩ := List.exists_cons_of_ne_nil hv
  simp [List.intercalate, List.intersperse_cons_cons, List.append_assoc]

theorem intercalate_append_ne (s : Str) (u v : List Str) (hu : u ≠ []) (hv : v ≠ []) :
    List.intercalate s (u ++ v) = List.intercalate s u ++ s ++ List.intercalate s v := by
  induction u with
  | nil => cases hu rfl
  | cons a u2 ih =>
      cases u2 with
      | nil => simp [intercalate_cons_ne s a v hv, intercalate_single]
      | cons b u3 =>
          have h1 : (b :: u3) ++ v ≠ [] := by simp
          have h2 : (b :: u3) ≠ ([] : List Str) := by simp
          rw [List.cons_append, intercalate_cons_ne s a _ h1, ih h2,
            intercalate_cons_ne s a _ h2]
          simp [List.append_assoc]

theorem joinTrail (c : Char) (sg : List Str) (h : sg ≠ []) :
    (sg.map (fun l => l ++ [c])).flatten = List.intercalate [c] sg ++ [c] := by
  induction sg with
  | nil => cases h rfl
  | cons x t ih =>
      cases t with
      | nil => simp [intercalate_single]
      | cons y t2 =>
          have h2 : (y :: t2) ≠ ([] : List Str) := by simp
          rw [List.map_cons, List.flatten_cons, ih h2, intercalate_cons_ne _ x _ h2]
          simp [List.append_assoc]

theorem trimTrailingNl_concat (s : Str) : trimTrailingNl (s ++ ['\n']) = s := by
  simp [trimTrailingNl, List.getLast?_concat, List.dropLast_concat]

theorem intercalate_flatten_nonempty (c : Char) (segs : List (List Str))
    (h : ∀ sg ∈ segs, sg ≠ []) :
    List.intercalate [c] (segs.map (List.intercalate [c])) =
      List.intercalate [c] segs.flatten := by
  induction segs with
  | nil => rfl
  | cons sg rest ih =>
      cases rest with
      | nil => simp [intercalate_single]
      | cons r2 t =>
          have hsg : sg ≠ [] := h sg (by simp)
          have hrest : ∀ x ∈ (r2 :: t), x ≠ [] := fun x hx => h x (by simp [hx])
          have hmapne : (r2 :: t).map (List.intercalate [c]) ≠ [] := by simp
          have hflatne : (r2 :: t).flatten ≠ [] := by
            have hr2 : r2 ≠ [] := hrest r2 (by simp)
            rw [List.flatten_cons]
            intro heq
            exact hr2 (List.append_eq_nil.mp heq).1
          rw [List.map_cons, intercalate_cons_ne _ _ _ hmapne, ih hrest]
          conv_rhs => rw [List.flatten_cons]
          rw [intercalate_append_ne _ _ _ hsg hflatne]

/-- The chunk-accumulation invariant of `chunkJSONL`: when every line fits
(with its separator) under the limit, the loop succeeds and the sealed chunks
are the newline-joins of a partition of the lines into non-empty consecutive
segments. -/
theorem chunkLoop_ok (maxSize : Nat) :
    ∀ (lines : List Str) (i : Nat) (segs : List (List Str)) (curSeg : List Str),
      (∀ l ∈ lines, l.length + 1 ≤ maxSize) →
      (∀ sg ∈ segs, sg ≠ []) →
      ∃ segs2 : List (List Str),
        chunkLoop maxSize lines i (segs.map (List.intercalate ['\n']))
            ((curSeg.map (fun l => l ++ ['\n'])).flatten) =
          .ok (segs2.map (List.intercalate ['\n'])) ∧
        (∀ sg ∈ segs2, sg ≠ []) ∧
        segs2.flatten = segs.flatten ++ curSeg ++ lines := by
  intro lines
  induction lines with
  | nil =>
      intro i segs curSeg hlines hsegs
      by_cases hc : curSeg = []
      · subst hc
        exact ⟨segs, by simp [chunkLoop], hsegs, by simp⟩
      · refine ⟨segs ++ [curSeg], ?_, ?_, by simp⟩
        · have htrim : trimTrailingNl ((curSeg.map (fun l => l ++ ['\n'])).flatten) =
              List.intercalate ['\n'] curSeg := by
            rw [joinTrail '\n' curSeg hc, trimTrailingNl_concat]
          have hpos : ((curSeg.map (fun l => l ++ ['\n'])).flatten).length > 0 := by
            rw [joinTrail '\n' curSeg hc]
            simp
          simp only [chunkLoop, hpos, if_pos, htrim, List.map_append, List.map_cons,
            List.map_nil]
        · intro sg hsg
          rcases List.mem_append.mp hsg with hs | hs
          · exact hsegs sg hs
          · simp only [List.mem_singleton] at hs
            subst hs
            exact hc
  | cons l rest ih =>
      intro i segs curSeg hlines hsegs
      have hl : l.length + 1 ≤ maxSize := hlines l (by simp)
      have hnotbig : ¬((l ++ ['\n']).length > maxSize) := by
        simp only [List.length_append, List.length_singleton]
        omega
      by_cases hseal : ((curSeg.map (fun x => x ++ ['\n'])).flatten).length +
          (l ++ ['\n']).length > maxSize ∧
          ((curSeg.map (fun x => x ++ ['\n'])).flatten).length > 0
      · have hc : curSeg ≠ [] := by
          intro h
          subst h
          simp at hseal
        have htrim : trimTrailingNl ((curSeg.map (fun x => x ++ ['\n'])).flatten) =
            List.intercalate ['\n'] curSeg := by
          rw [joinTrail '\n' curSeg hc, trimTrailingNl_concat]
        have hstep : chunkLoop maxSize (l :: rest) i (segs.map (List.intercalate ['\n']))
            ((curSeg.map (fun x => x ++ ['\n'])).flatten) =
            chunkLoop maxSize rest (i + 1)
              ((segs ++ [curSeg]).map (List.intercalate ['\n']))
              (([l].map (fun x => x ++ ['\n'])).flatten) := by
          simp only [chunkLoop, if_neg hnotbig, if_pos hseal, htrim, List.map_append,
            List.map_cons, List.map_nil, List.flatten_cons, List.flatten_nil,
            List.append_nil]
        have hsegs2 : ∀ sg ∈ segs ++ [curSeg], sg ≠ [] := by
          intro sg hsg
          rcases List.mem_append.mp hsg with hs | hs
          · exact hsegs sg hs
          · simp only [List.mem_singleton] at hs
            subst hs
            exact hc
        obtain ⟨segs2, heq, hne2, hj⟩ :=
          ih (i + 1) (segs ++ [curSeg]) [l] (fun x hx => hlines x (by simp [hx])) hsegs2
        refine ⟨segs2, ?_, hne2, ?_⟩
        · rw [hstep]
          exact heq
        · rw [hj]
          simp [List.append_assoc]
      · have hstep : chunkLoop maxSize (l :: rest) i (segs.map (List.intercalate ['\n']))
            ((curSeg.map (fun x => x ++ ['\n'])).flatten) =
            chunkLoop maxSize rest (i + 1) (segs.map (List.intercalate ['\n']))
              (((curSeg ++ [l]).map (fun x => x ++ ['\n'])).flatten) := by
          simp only [chunkLoop, if_neg hnotbig, if_neg hseal, List.map_append,
            List.map_cons, List.map_nil, List.flatten_append, List.flatten_cons,
            List.flatten_nil, List.append_nil]
        obtain ⟨segs2, heq, hne2, hj⟩ :=
          ih (i + 1) segs (curSeg ++ [l]) (fun x hx => hlines x (by simp [hx])) hsegs
        refine ⟨segs2, ?_, hne2, ?_⟩
        · rw [hstep]
          exact heq
        · rw [hj]
          simp [List.append_assoc]

theorem splitOn_ne_nil (content : Str) (c : Char) : content.splitOn c ≠ [] := by
  simp only [List.splitOn]
  exact List.splitOnP_ne_nil _ _

/-- C1 (amended): for every content string, reassembling the chunks of
`chunkJSONL` reproduces the content byte for byte, for every threshold at
least the longest line's length plus one (the line plus its newline
separator). -/
theorem chunkJSONL_roundtrip (content : Str) (maxSize : Nat)
    (h : ∀ l ∈ jsonlLines content, l.length + 1 ≤ maxSize) :
    ∃ cs, chunkJSONL content maxSize = .ok cs ∧ reassembleJSONL cs = content := by
  by_cases hc : content = []
  · subst hc
    exact ⟨[], by simp [chunkJSONL], by simp [reassembleJSONL, List.intercalate]⟩
  · have hlines : ∀ l ∈ content.splitOn '\n', l.length + 1 ≤ maxSize := by
      simpa [jsonlLines, hc] using h
    obtain ⟨segs2, heq, hne2, hj⟩ :=
      chunkLoop_ok maxSize (content.splitOn '\n') 0 [] [] hlines (by simp)
    simp only [List.map_nil, List.flatten_nil, List.nil_append] at heq hj
    refine ⟨segs2.map (List.intercalate ['\n']), ?_, ?_⟩
    · rw [chunkJSONL, if_neg hc]
      exact heq
    · rw [reassembleJSONL, intercalate_flatten_nonempty _ _ hne2, hj]
      exact List.intercalate_splitOn content '\n'

/-- Witness for C1 at the content `"a\nb"` with threshold 2 (each line plus
separator is exactly 2 bytes). -/
theorem chunkJSONL_roundtrip_witness :
    ∃ cs, chunkJSONL ['a', '\n', 'b'] 2 = .ok cs ∧
      reassembleJSONL cs = ['a', '\n', 'b'] :=
  chunkJSONL_roundtrip ['a', '\n', 'b'] 2 (by decide)

/-- C1 counterexample: the content `"ab"` is one line of length 2, and the
threshold 2 is at least the longest line's length, yet `chunkJSONL` fails
with an error instead of producing chunks that reassemble to the content. -/
theorem chunkJSONL_roundtrip_counterexample :
    chunkJSONL ['a', 'b'] 2 = .error ⟨1, 3, 2⟩ ∧
    (∀ l ∈ jsonlLines ['a', 'b'], l.length ≤ 2) := by
  constructor
  · rfl
  · decide

/-- Soundness of the chunk-loop error: an error always reports the 1-based
index of an offending line relative to the loop's starting index, that line's
size including its separator, and the configured maximum. -/
theorem chunkLoop_error_sound (maxSize : Nat) :
    ∀ (lines : List Str) (i : Nat) (chunks : List Str) (current : Str) (e : ChunkError),
      chunkLoop maxSize lines i chunks current = .error e →
      ∃ k, ∃ hk : k < lines.length,
        e = ⟨i + k + 1, lines[k].length + 1, maxSize⟩ ∧
          maxSize < lines[k].length + 1 := by
  intro lines
  induction lines with
  | nil =>
      intro i chunks current e he
      by_cases h : current.length > 0 <;> simp [chunkLoop, h] at he
  | cons l rest ih =>
      intro i chunks current e he
      by_cases hbig : maxSize < l.length + 1
      · have heq : (⟨i + 1, l.length + 1, maxSize⟩ : ChunkError) = e := by
          simpa [chunkLoop, hbig] using he
        refine ⟨0, by simp, ?_, ?_⟩
        · rw [← heq]
          simp
        · simpa using hbig
      · by_cases hseal : maxSize < current.length + (l.length + 1) ∧ 0 < current.length
        · have he2 : chunkLoop maxSize rest (i + 1) (chunks ++ [trimTrailingNl current])
              (l ++ ['\n']) = .error e := by
            simpa [chunkLoop, hbig, hseal.1, hseal.2] using he
          obtain ⟨k, hk, hek, hlt⟩ := ih (i + 1) _ _ e he2
          refine ⟨k + 1, by simpa using Nat.succ_lt_succ hk, ?_, ?_⟩
          · rw [hek]
            simp only [List.getElem_cons_succ, ChunkError.mk.injEq]
            and_intros <;> first | trivial | omega
          · simpa [List.getElem_cons_succ] using hlt
        · have he2 : chunkLoop maxSize rest (i + 1) chunks (current ++ (l ++ ['\n'])) =
              .error e := by
            simpa [chunkLoop, hbig, hseal] using he
          obtain ⟨k, hk, hek, hlt⟩ := ih (i + 1) _ _ e he2
          refine ⟨k + 1, by simpa using Nat.succ_lt_succ hk, ?_, ?_⟩
          · rw [hek]
            simp only [List.getElem_cons_succ, ChunkError.mk.injEq]
            and_intros <;> first | trivial | omega
          · simpa [List.getElem_cons_succ] using hlt

/-- Completeness of the chunk-loop error: an offending line anywhere in the
remaining input forces an error. -/
theorem chunkLoop_error_complete (maxSize : Nat) :
    ∀ (lines : List Str) (i : Nat) (chunks : List Str) (current : Str),
      (∃ l ∈ lines, maxSize < l.length + 1) →
      ∃ e, chunkLoop maxSize lines i chunks current = .error e := by
  intro lines
  induction lines with
  | nil =>
      intro i chunks current hoff
      simp at hoff
  | cons l rest ih =>
      intro i chunks current hoff
      by_cases hbig : maxSize < l.length + 1
      · refine ⟨⟨i + 1, l.length + 1, maxSize⟩, ?_⟩
        simp [chunkLoop, hbig]
      · have hoffrest : ∃ x ∈ rest, maxSize < x.length + 1 := by
          rcases hoff with ⟨x, hx, hlt⟩
          rcases List.mem_cons.mp hx with rfl | hx2
          · exact absurd hlt hbig
          · exact ⟨x, hx2, hlt⟩
        by_cases hseal : maxSize < current.length + (l.length + 1) ∧ 0 < current.length
        · obtain ⟨e, he⟩ := ih (i + 1) (chunks ++ [trimTrailingNl current])
            (l ++ ['\n']) hoffrest
          exact ⟨e, by simpa [chunkLoop, hbig, hseal.1, hseal.2] using he⟩
        · obtain ⟨e, he⟩ := ih (i + 1) chunks (current ++ (l ++ ['\n'])) hoffrest
          exact ⟨e, by simpa [chunkLoop, hbig, hseal] using he⟩

/-- C5: `chunkJSONL` fails with an explicit error exactly when some line of
the content plus its separator exceeds the threshold (and otherwise returns
normally), and the error identifies the offending 1-based line number, the
line's size including its separator, and the threshold. -/
theorem chunkJSONL_error_spec (content : Str) (maxSize : Nat) :
    ((∃ e, chunkJSONL content maxSize = .error e) ↔
      ∃ l ∈ jsonlLines content, maxSize < l.length + 1) ∧
    (∀ e, chunkJSONL content maxSize = .error e →
      ∃ k, ∃ hk : k < (jsonlLines content).length,
        e = ⟨k + 1, (jsonlLines content)[k].length + 1, maxSize⟩ ∧
          maxSize < e.lineSize) := by
  by_cases hc : content = []
  · subst hc
    constructor
    · constructor
      · rintro ⟨e, he⟩
        simp [chunkJSONL] at he
      · rintro ⟨l, hl, _⟩
        simp [jsonlLines] at hl
    · intro e he
      simp [chunkJSONL] at he
  · have hjl : jsonlLines content = content.splitOn '\n' := by
      simp [jsonlLines, hc]
    constructor
    · constructor
      · rintro ⟨e, he⟩
        rw [chunkJSONL, if_neg hc] at he
        obtain ⟨k, hk, _, hlt⟩ := chunkLoop_error_sound maxSize _ 0 [] [] e he
        rw [hjl]
        exact ⟨(content.splitOn '\n')[k], List.getElem_mem hk, hlt⟩
      · intro hoff
        rw [hjl] at hoff
        obtain ⟨e, he⟩ := chunkLoop_error_complete maxSize _ 0 [] [] hoff
        exact ⟨e, by rw [chunkJSONL, if_neg hc]; exact he⟩
    · intro e he
      rw [chunkJSONL, if_neg hc] at he
      rw [hjl]
      obtain ⟨k, hk, hek, hlt⟩ := chunkLoop_error_sound maxSize _ 0 [] [] e he
      refine ⟨k, hk, ?_, ?_⟩
      · rw [hek]
        simp only [ChunkError.mk.injEq]
        and_intros <;> first | trivial | omega
      · rw [hek]
        exact hlt

/-- Witness for C5: the single oversized line `"ab"` against threshold 2
yields the error carrying line number 1, size 3 and the threshold. -/
theorem chunkJSONL_error_spec_witness :
    ∃ k, ∃ hk : k < (jsonlLines ['a', 'b']).length,
      (⟨1, 3, 2⟩ : ChunkError) =
        ⟨k + 1, (jsonlLines ['a', 'b'])[k].length + 1, 2⟩ ∧
        2 < (⟨1, 3, 2⟩ : ChunkError).lineSize :=
  (chunkJSONL_error_spec ['a', 'b'] 2).2 ⟨1, 3, 2⟩ (by rfl)

/-- A run of the chunk loop whose remaining lines all fit in one chunk with
the accumulator: no seal ever happens and the loop returns the single joined
chunk. -/
theorem chunkLoop_single (maxSize : Nat) :
    ∀ (lines : List Str) (i : Nat) (cur : Str),
      cur.length + ((lines.map (fun l => l.length + 1)).sum) ≤ maxSize →
      (cur ≠ [] ∨ lines ≠ []) →
      chunkLoop maxSize lines i [] cur =
        .ok [trimTrailingNl (cur ++ (lines.map (fun l => l ++ ['\n'])).flatten)] := by
  intro lines
  induction lines with
  | nil =>
      intro i cur hsum hne
      rcases hne with hcne | hl
      · have hpos : cur.length > 0 := List.length_pos.mpr hcne
        simp [chunkLoop, hpos]
      · cases hl rfl
  | cons l rest ih =>
      intro i cur hsum hne
      simp only [List.map_cons, List.sum_cons] at hsum
      have hnotbig : ¬((l ++ ['\n']).length > maxSize) := by
        simp only [List.length_append, List.length_singleton, gt_iff_lt, not_lt]
        omega
      have hnoseal : ¬(cur.length + (l ++ ['\n']).length > maxSize ∧ cur.length > 0) := by
        rintro ⟨h1, _⟩
        simp only [List.length_append, List.length_singleton] at h1
        omega
      have hstep : chunkLoop maxSize (l :: rest) i [] cur =
          chunkLoop maxSize rest (i + 1) [] (cur ++ (l ++ ['\n'])) := by
        simp only [chunkLoop, if_neg hnotbig, if_neg hnoseal]
      rw [hstep, ih (i + 1) (cur ++ (l ++ ['\n']))
        (by simp only [List.length_append, List.length_singleton]; omega)
        (Or.inl (by simp))]
      simp [List.append_assoc]

/-- The total byte budget of the lines of a newline-split: each line plus one
separator, which is the content length plus one. -/
theorem splitOn_sum_lengths (content : Str) :
    (((content.splitOn '\n').map (fun l => l.length + 1)).sum) = content.length + 1 := by
  have h2 : content.splitOn '\n' ≠ [] := splitOn_ne_nil content '\n'
  have hlen : ∀ (ls : List Str), ls ≠ [] →
      (List.intercalate ['\n'] ls).length + 1 = ((ls.map (fun l => l.length + 1)).sum) := by
    intro ls
    induction ls with
    | nil => intro h; cases h rfl
    | cons x t ih =>
        intro _
        cases t with
        | nil => simp [intercalate_single]
        | cons y t2 =>
            have ht2 : (y :: t2) ≠ ([] : List Str) := by simp
            rw [intercalate_cons_ne _ _ _ ht2]
            have := ih ht2
            simp only [List.map_cons, List.sum_cons] at this ⊢
            simp only [List.length_append, List.length_singleton]
            omega
  have h1 := hlen (content.splitOn '\n') h2
  rw [List.intercalate_splitOn content '\n'] at h1
  exact h1.symm

/-- C7 (amended): content at or under the threshold is returned as a single
chunk equal to the input by `chunkTranscript` and by `chunkGeminiJSON`, which
both test the content length explicitly; `chunkJSONL` has no such early
return and yields the single input chunk only when the content is non-empty
and its length plus one trailing separator fits under the threshold. -/
theorem chunk_single_under_threshold :
    (∀ (detect : Str → Option Str) (gemChunk : Str → Nat → Option (List Str))
        (content : Str) (agentType : Option Str) (maxSize : Nat),
      content.length ≤ maxSize →
      chunkTranscript detect gemChunk content agentType maxSize = .ok [content]) ∧
    (∀ (α : Type) (parseMsgs : Str → Option (List α)) (serChunk : List α → Str)
        (sz : α → Nat) (content : Str) (maxSize : Nat),
      content.length ≤ maxSize →
      chunkGeminiJSONStr parseMsgs serChunk sz content maxSize = some [content]) ∧
    (∀ (content : Str) (maxSize : Nat), content ≠ [] →
      content.length + 1 ≤ maxSize →
      chunkJSONL content maxSize = .ok [content]) := by
  refine ⟨?_, ?_, ?_⟩
  · intro detect gemChunk content agentType maxSize h
    simp [chunkTranscript, h]
  · intro α parseMsgs serChunk sz content maxSize h
    simp [chunkGeminiJSONStr, h]
  · intro content maxSize hne hlen
    rw [chunkJSONL, if_neg hne]
    have hsplit : content.splitOn '\n' ≠ [] := splitOn_ne_nil content '\n'
    rw [chunkLoop_single maxSize (content.splitOn '\n') 0 []
      (by rw [splitOn_sum_lengths]; simpa using hlen) (Or.inr hsplit)]
    rw [List.nil_append, joinTrail '\n' _ hsplit, trimTrailingNl_concat,
      List.intercalate_splitOn content '\n']

/-- Witness for C7: a one-byte content against thresholds that admit it in
each of the three chunkers. -/
theorem chunk_single_under_threshold_witness :
    chunkTranscript (fun _ => none) (fun _ _ => none) ['a'] none 1 = .ok [['a']] ∧
    @chunkGeminiJSONStr Unit (fun _ => none) (fun _ => []) (fun _ => 1) ['a'] 1 =
      some [['a']] ∧
    chunkJSONL ['a'] 2 = .ok [['a']] :=
  ⟨chunk_single_under_threshold.1 _ _ ['a'] none 1 (by decide),
   chunk_single_under_threshold.2.1 Unit _ _ _ ['a'] 1 (by decide),
   chunk_single_under_threshold.2.2 ['a'] 2 (by decide) (by decide)⟩

/-- C7 counterexample: the content `"a\nb"` has length 3, at or under the
threshold 3, yet `chunkJSONL` returns two chunks rather than one chunk equal
to the input. -/
theorem chunkJSONL_not_single_counterexample :
    chunkJSONL ['a', '\n', 'b'] 3 = .ok [['a'], ['b']] ∧
    chunkJSONL ['a', '\n', 'b'] 3 ≠ .ok [['a', '\n', 'b']] ∧
    (['a', '\n', 'b'] : Str).length ≤ 3 := by
  refine ⟨by rfl, ?_, by decide⟩
  intro h
  have h2 : (Except.ok [['a'], ['b']] : Except ChunkError (List Str)) =
      .ok [['a', '\n', 'b']] := by
    rw [← h]
    rfl
  simp at h2

/-- The Gemini message loop partitions: whatever the size accounting decides,
the concatenation of the produced chunks is the accumulated state followed by
the remaining messages — no message is dropped, duplicated or reordered. -/
theorem gemLoop_flatten {α : Type} (sz : α → Nat) (maxSize : Nat) :
    ∀ (msgs : List α) (chunks : List (List α)) (cur : List α) (curSize : Nat),
      (gemLoop sz maxSize msgs chunks cur curSize).flatten =
        chunks.flatten ++ cur ++ msgs := by
  intro msgs
  induction msgs with
  | nil =>
      intro chunks cur curSize
      by_cases hc : cur.length > 0
      · simp [gemLoop, hc]
      · have hnil : cur = [] := by simpa using hc
        simp [gemLoop, hc, hnil]
  | cons m rest ih =>
      intro chunks cur curSize
      by_cases hseal : curSize + (sz m + (if cur.length > 0 then 1 else 0)) > maxSize ∧
          cur.length > 0
      · have hstep : gemLoop sz maxSize (m :: rest) chunks cur curSize =
            gemLoop sz maxSize rest (chunks ++ [cur]) [m]
              (15 + (sz m + (if cur.length > 0 then 1 else 0))) := by
          simp only [gemLoop, if_pos hseal]
        rw [hstep, ih]
        simp [List.append_assoc]
      · have hstep : gemLoop sz maxSize (m :: rest) chunks cur curSize =
            gemLoop sz maxSize rest chunks (cur ++ [m])
              (curSize + (sz m + (if cur.length > 0 then 1 else 0))) := by
          simp only [gemLoop, if_neg hseal]
        rw [hstep, ih]
        simp [List.append_assoc]

/-- Parsing each serialized chunk back yields the chunk lists. -/
theorem parseAllChunks_map_some {α : Type} (pm : Str → Option (List α))
    (ser : List α → Str) (hinv : ∀ ms, pm (ser ms) = some ms) :
    ∀ ls : List (List α), parseAllChunks pm (ls.map ser) = some ls := by
  intro ls
  induction ls with
  | nil => simp [parseAllChunks]
  | cons x t ih => simp [parseAllChunks, hinv, ih]

/-- Lists of units are determined by their length. -/
theorem unit_list_replicate (ms : List Unit) : List.replicate ms.length () = ms := by
  induction ms with
  | nil => rfl
  | cons x t ih =>
      cases x
      simp [List.replicate_succ, ih]

/-- C3: for every content whose parse yields a message list and every
threshold, chunking with `chunkGeminiJSON` and reassembling with
`reassembleGeminiJSON` yields a document whose parsed message list equals the
original, element for element and in order, regardless of how many chunks are
produced; `parseMsgs`/`serChunk` model the JSON library with its round-trip
property as a hypothesis. -/
theorem chunkGemini_roundtrip {α : Type} (parseMsgs : Str → Option (List α))
    (serChunk : List α → Str) (sz : α → Nat) (content : Str) (maxSize : Nat)
    (msgs : List α) (hinv : ∀ ms, parseMsgs (serChunk ms) = some ms)
    (hc : parseMsgs content = some msgs) :
    ∃ chunks, chunkGeminiJSONStr parseMsgs serChunk sz content maxSize = some chunks ∧
      ∃ out, reassembleGeminiJSONStr parseMsgs serChunk chunks = some out ∧
        parseMsgs out = some msgs := by
  by_cases hlen : content.length ≤ maxSize
  · exact ⟨[content], by simp [chunkGeminiJSONStr, hlen], content,
      by simp [reassembleGeminiJSONStr], hc⟩
  · have hflat : (chunkGeminiMessages sz maxSize msgs).flatten = msgs := by
      unfold chunkGeminiMessages
      rw [gemLoop_flatten]
      simp
    refine ⟨(chunkGeminiMessages sz maxSize msgs).map serChunk, ?_, ?_⟩
    · simp [chunkGeminiJSONStr, hlen, hc]
    · cases hsegs : chunkGeminiMessages sz maxSize msgs with
      | nil =>
          rw [hsegs] at hflat
          simp only [List.flatten_nil] at hflat
          refine ⟨serChunk [], by simp [reassembleGeminiJSONStr], ?_⟩
          rw [hinv [], hflat]
      | cons s1 t =>
          cases t with
          | nil =>
              rw [hsegs] at hflat
              simp only [List.flatten_cons, List.flatten_nil, List.append_nil] at hflat
              refine ⟨serChunk s1, by simp [reassembleGeminiJSONStr], ?_⟩
              rw [hinv s1, hflat]
          | cons s2 rest =>
              rw [hsegs] at hflat
              refine ⟨serChunk ((s1 :: s2 :: rest).flatten), ?_, ?_⟩
              · simp only [reassembleGeminiJSONStr, List.map_cons]
                rw [show parseAllChunks parseMsgs
                      (serChunk s1 :: serChunk s2 :: rest.map serChunk) =
                    some (s1 :: s2 :: rest) from by
                  have := parseAllChunks_map_some parseMsgs serChunk hinv (s1 :: s2 :: rest)
                  simpa using this]
                rfl
              · rw [hinv, hflat]

/-- Witness for C3: two unit messages serialized as `x` characters against
threshold 1, forcing a multi-chunk split that still reassembles to the same
message list. -/
theorem chunkGemini_roundtrip_witness :
    ∃ chunks, chunkGeminiJSONStr (fun s => some (List.replicate s.length ()))
        (fun ms => List.replicate ms.length 'x') (fun _ => 1) ['x', 'x'] 1 =
        some chunks ∧
      ∃ out, reassembleGeminiJSONStr (fun s => some (List.replicate s.length ()))
          (fun ms => List.replicate ms.length 'x') chunks = some out ∧
        (fun s => some (List.replicate s.length ())) out = some [(), ()] :=
  chunkGemini_roundtrip (fun s => some (List.replicate s.length ()))
    (fun ms => List.replicate ms.length 'x') (fun _ => 1) ['x', 'x'] 1 [(), ()]
    (fun ms => by simp [unit_list_replicate]) rfl

/-- Field-wise characterization of the usage-sum fold: each of the five
numeric fields of the result is the starting value plus the sum of that field
over the list, and the accumulator's nested usage is untouched. -/
theorem foldl_addUsageCounts (l : List TokenUsage) : ∀ u0 : TokenUsage,
    l.foldl addUsageCounts u0 = TokenUsage.mk
      (u0.inputTokens + (l.map (fun u => u.inputTokens)).sum)
      (u0.cacheCreationTokens + (l.map (fun u => u.cacheCreationTokens)).sum)
      (u0.cacheReadTokens + (l.map (fun u => u.cacheReadTokens)).sum)
      (u0.outputTokens + (l.map (fun u => u.outputTokens)).sum)
      (u0.apiCallCount + (l.map (fun u => u.apiCallCount)).sum)
      u0.subagentTokens := by
  induction l with
  | nil =>
      intro u0
      simp only [List.foldl_nil, List.map_nil, List.sum_nil, Nat.add_zero]
      exact (TokenUsage.eta u0).symm
  | cons u l ih =>
      intro u0
      rw [List.foldl_cons, ih]
      simp only [addUsageCounts, TokenUsage.inputTokens_mk, TokenUsage.cacheCreationTokens_mk,
        TokenUsage.cacheReadTokens_mk, TokenUsage.outputTokens_mk, TokenUsage.apiCallCount_mk,
        TokenUsage.subagentTokens_mk, List.map_cons, List.sum_cons, TokenUsage.mk.injEq]
      and_intros <;> first | trivial | omega

/-- The subagent fold, characterized over any accumulator: it adds up the
usages of exactly the loadable (non-falsy) subagent transcripts in order, and
its flag records whether at least one was loaded. -/
theorem subagent_foldl (jp : Str → Option Claude.TranscriptLine)
    (loader : Str → Option Str) :
    ∀ (ids : List Str) (u0 : TokenUsage) (h0 : Bool),
      ids.foldl (Claude.subagentStep jp loader) (u0, h0) =
        (((ClaudeSpec.loadedContents loader ids).map
            (fun c => Claude.calculateTokenUsage (Claude.parseFromString jp c))).foldl
          addUsageCounts u0,
         h0 || !(ClaudeSpec.loadedContents loader ids).isEmpty) := by
  intro ids
  induction ids with
  | nil =>
      intro u0 h0
      simp [ClaudeSpec.loadedContents]
  | cons id rest ih =>
      intro u0 h0
      cases hld : loader id with
      | none =>
          have hstep : Claude.subagentStep jp loader (u0, h0) id = (u0, h0) := by
            simp [Claude.subagentStep, hld]
          rw [List.foldl_cons, hstep, ih]
          simp [ClaudeSpec.loadedContents, List.filterMap_cons, hld]
      | some c =>
          by_cases hce : c = []
          · have hstep : Claude.subagentStep jp loader (u0, h0) id = (u0, h0) := by
              simp [Claude.subagentStep, hld, hce]
            rw [List.foldl_cons, hstep, ih]
            simp [ClaudeSpec.loadedContents, List.filterMap_cons, hld, hce]
          · have hstep : Claude.subagentStep jp loader (u0, h0) id =
                (addUsageCounts u0
                  (Claude.calculateTokenUsage (Claude.parseFromString jp c)), true) := by
              simp [Claude.subagentStep, hld, hce]
            rw [List.foldl_cons, hstep, ih]
            simp [ClaudeSpec.loadedContents, List.filterMap_cons, hld, hce]

/-- The Claude aggregator never sets a nested usage on its own result. -/
theorem claude_calculateTokenUsage_subagent_none (lines : List Claude.TranscriptLine) :
    (Claude.calculateTokenUsage lines).subagentTokens = none := rfl

/-- C6: `calculateTotalTokenUsage` returns main totals equal to
`calculateTokenUsage` of the input lines, unaffected by loader results; a
nested `subagentTokens` total is attached exactly when at least one
discovered subagent id's loader call yields (non-empty) transcript content,
and equals the field-wise sum — API call count included — of each loaded
subagent transcript's deduplicated usage, ids with a loader miss being
silently skipped. -/
theorem calculateTotalTokenUsage_spec (jp : Str → Option Claude.TranscriptLine)
    (lines : List Claude.TranscriptLine) (loader : Str → Option Str) :
    ((Claude.calculateTotalTokenUsage jp lines loader).inputTokens =
        (Claude.calculateTokenUsage lines).inputTokens ∧
      (Claude.calculateTotalTokenUsage jp lines loader).cacheCreationTokens =
        (Claude.calculateTokenUsage lines).cacheCreationTokens ∧
      (Claude.calculateTotalTokenUsage jp lines loader).cacheReadTokens =
        (Claude.calculateTokenUsage lines).cacheReadTokens ∧
      (Claude.calculateTotalTokenUsage jp lines loader).outputTokens =
        (Claude.calculateTokenUsage lines).outputTokens ∧
      (Claude.calculateTotalTokenUsage jp lines loader).apiCallCount =
        (Claude.calculateTokenUsage lines).apiCallCount) ∧
    ((Claude.calculateTotalTokenUsage jp lines loader).subagentTokens =
      (if ClaudeSpec.loadedContents loader
            ((Claude.extractSpawnedAgentIds lines).map (fun p => p.1)) = [] then none
       else some (ClaudeSpec.sumUsages
        ((ClaudeSpec.loadedContents loader
            ((Claude.extractSpawnedAgentIds lines).map (fun p => p.1))).map
          (fun c => Claude.calculateTokenUsage (Claude.parseFromString jp c)))))) ∧
    (∀ us : List TokenUsage,
      (ClaudeSpec.sumUsages us).inputTokens = (us.map (fun u => u.inputTokens)).sum ∧
      (ClaudeSpec.sumUsages us).cacheCreationTokens =
        (us.map (fun u => u.cacheCreationTokens)).sum ∧
      (ClaudeSpec.sumUsages us).cacheReadTokens =
        (us.map (fun u => u.cacheReadTokens)).sum ∧
      (ClaudeSpec.sumUsages us).outputTokens = (us.map (fun u => u.outputTokens)).sum ∧
      (ClaudeSpec.sumUsages us).apiCallCount = (us.map (fun u => u.apiCallCount)).sum ∧
      (ClaudeSpec.sumUsages us).subagentTokens = none) := by
  have hsum : ∀ us : List TokenUsage,
      ClaudeSpec.sumUsages us = TokenUsage.mk
        ((us.map (fun u => u.inputTokens)).sum)
        ((us.map (fun u => u.cacheCreationTokens)).sum)
        ((us.map (fun u => u.cacheReadTokens)).sum)
        ((us.map (fun u => u.outputTokens)).sum)
        ((us.map (fun u => u.apiCallCount)).sum)
        none := by
    intro us
    unfold ClaudeSpec.sumUsages
    rw [foldl_addUsageCounts]
    simp [emptyTokenUsage]
  by_cases hlen :
      ((Claude.extractSpawnedAgentIds lines).map (fun p => p.1)).length > 0
  · have hrw : Claude.calculateTotalTokenUsage jp lines loader =
        (if (((Claude.extractSpawnedAgentIds lines).map (fun p => p.1)).foldl
              (Claude.subagentStep jp loader) (emptyTokenUsage, false)).2
         then withSubagent (Claude.calculateTokenUsage lines)
            ((((Claude.extractSpawnedAgentIds lines).map (fun p => p.1)).foldl
              (Claude.subagentStep jp loader) (emptyTokenUsage, false)).1)
         else Claude.calculateTokenUsage lines) := by
      simp only [Claude.calculateTotalTokenUsage]
      rw [if_pos hlen]
    rw [hrw, subagent_foldl]
    cases hld : ClaudeSpec.loadedContents loader
        ((Claude.extractSpawnedAgentIds lines).map (fun p => p.1)) with
    | nil =>
        simp only [hld, List.map_nil, List.foldl_nil, List.isEmpty_nil, Bool.not_true,
          Bool.or_false, if_false, Bool.false_or]
        exact ⟨⟨rfl, rfl, rfl, rfl, rfl⟩,
          by simp [claude_calculateTokenUsage_subagent_none],
          fun us => by rw [hsum us]; simp⟩
    | cons c cs =>
        simp only [hld, List.isEmpty_cons, Bool.not_false, Bool.or_true, if_true,
          Bool.false_or]
        refine ⟨⟨by simp [withSubagent], by simp [withSubagent], by simp [withSubagent],
          by simp [withSubagent], by simp [withSubagent]⟩, ?_,
          fun us => by rw [hsum us]; simp⟩
        simp only [withSubagent, TokenUsage.subagentTokens_mk]
        rw [if_neg (by simp), hsum, foldl_addUsageCounts]
        simp [emptyTokenUsage]
  · have hids : (Claude.extractSpawnedAgentIds lines).map (fun p => p.1) = [] := by
      rcases hn : (Claude.extractSpawnedAgentIds lines).map (fun p => p.1) with _ | ⟨x, xs⟩
      · exact hn
      · rw [hn] at hlen
        simp at hlen
    have hrw : Claude.calculateTotalTokenUsage jp lines loader =
        Claude.calculateTokenUsage lines := by
      simp only [Claude.calculateTotalTokenUsage]
      rw [if_neg hlen]
    rw [hrw, hids]
    exact ⟨⟨rfl, rfl, rfl, rfl, rfl⟩,
      by rw [claude_calculateTokenUsage_subagent_none]; simp [ClaudeSpec.loadedContents],
      fun us => by rw [hsum us]; simp⟩

theorem lookupRow_append (a b : List (Str × Claude.UsageRow)) (id : Str) :
    Claude.lookupRow (a ++ b) id =
      match Claude.lookupRow a id with
      | some v => some v
      | none => Claude.lookupRow b id := by
  induction a with
  | nil => simp [Claude.lookupRow]
  | cons p rest ih =>
      by_cases h : p.1 = id
      · simp [Claude.lookupRow, h]
      · simp only [List.cons_append, Claude.lookupRow, if_neg h]
        exact ih

theorem lookupRow_map_replace (id0 : Str) (u0 : Claude.UsageRow) :
    ∀ (m : List (Str × Claude.UsageRow)) (id : Str),
      Claude.lookupRow (m.map (fun p => if p.1 = id0 then (id0, u0) else p)) id =
        if id = id0 then (Claude.lookupRow m id0).map (fun _ => u0)
        else Claude.lookupRow m id := by
  intro m
  induction m with
  | nil =>
      intro id
      by_cases h : id = id0 <;> simp [Claude.lookupRow, h]
  | cons p rest ih =>
      intro id
      by_cases hp : p.1 = id0
      · by_cases hid : id = id0
        · subst hid
          simp [Claude.lookupRow, hp]
        · have hne : ¬(id0 = id) := fun h => hid h.symm
          have hpne : ¬(p.1 = id) := by rw [hp]; exact hne
          simp [Claude.lookupRow, hp, hne, hid, hpne, ih]
      · by_cases hpid : p.1 = id
        · have hid : ¬(id = id0) := fun h => hp (hpid.trans h)
          simp [Claude.lookupRow, hp, hpid, hid]
        · simp [Claude.lookupRow, hp, hpid, ih]

theorem keys_map_replace (id0 : Str) (u0 : Claude.UsageRow)
    (m : List (Str × Claude.UsageRow)) :
    (m.map (fun p => if p.1 = id0 then (id0, u0) else p)).map (fun p => p.1) =
      m.map (fun p => p.1) := by
  induction m with
  | nil => rfl
  | cons p rest ih =>
      by_cases hp : p.1 = id0
      · simp [hp, ih]
      · simp [hp, ih]

theorem mem_specKeys_aux (a : Str) :
    ∀ (rows : List (Str × Claude.UsageRow)) (ks : List Str),
      (a ∈ rows.foldl (fun ks p => if p.1 ∈ ks then ks else ks ++ [p.1]) ks ↔
        a ∈ ks ∨ a ∈ rows.map (fun p => p.1)) := by
  intro rows
  induction rows with
  | nil => intro ks; simp
  | cons p rest ih =>
      intro ks
      rw [List.foldl_cons, ih]
      have hks : a ∈ (if p.1 ∈ ks then ks else ks ++ [p.1]) ↔ a ∈ ks ∨ a = p.1 := by
        by_cases hp : p.1 ∈ ks
        · rw [if_pos hp]
          constructor
          · exact Or.inl
          · rintro (h | rfl)
            · exact h
            · exact hp
        · rw [if_neg hp]
          simp
      rw [hks]
      rw [List.map_cons, List.mem_cons]
      exact or_assoc

theorem mem_specKeys (a : Str) (rows : List (Str × Claude.UsageRow)) :
    a ∈ ClaudeSpec.specKeys rows ↔ a ∈ rows.map (fun p => p.1) := by
  rw [ClaudeSpec.specKeys, mem_specKeys_aux]
  exact or_iff_right (List.not_mem_nil a)

theorem specRowsFor_eq_nil_iff (rows : List (Str × Claude.UsageRow)) (id : Str) :
    ClaudeSpec.specRowsFor rows id = [] ↔ id ∉ rows.map (fun p => p.1) := by
  rw [ClaudeSpec.specRowsFor, List.map_eq_nil_iff, List.filter_eq_nil_iff]
  constructor
  · intro h hmem
    obtain ⟨p, hp, hpeq⟩ := List.mem_map.mp hmem
    exact h p hp (by simp [hpeq])
  · intro h p hp
    simp only [decide_eq_true_eq]
    intro heq
    exact h (List.mem_map.mpr ⟨p, hp, heq⟩)

theorem foldr_max_init (l : List Nat) : ∀ a : Nat, l.foldr max a = max (l.foldr max 0) a := by
  induction l with
  | nil => intro a; simp
  | cons x t ih =>
      intro a
      simp only [List.foldr_cons, ih a]
      rw [Nat.max_assoc]

theorem specMaxOutput_append_single (rs : List Claude.UsageRow) (u : Claude.UsageRow) :
    ClaudeSpec.specMaxOutput (rs ++ [u]) =
      max (ClaudeSpec.specMaxOutput rs) u.output_tokens := by
  unfold ClaudeSpec.specMaxOutput
  rw [List.map_append, List.foldr_append]
  simp only [List.map_cons, List.map_nil, List.foldr_cons, List.foldr_nil]
  rw [foldr_max_init]
  simp [Nat.max_comm]

theorem le_specMaxOutput (rs : List Claude.UsageRow) :
    ∀ r ∈ rs, r.output_tokens ≤ ClaudeSpec.specMaxOutput rs := by
  induction rs with
  | nil => simp
  | cons x t ih =>
      intro r hr
      have hcons : ClaudeSpec.specMaxOutput (x :: t) =
          max x.output_tokens (ClaudeSpec.specMaxOutput t) := rfl
      rcases List.mem_cons.mp hr with rfl | hmem
      · rw [hcons]
        exact Nat.le_max_left _ _
      · rw [hcons]
        exact Nat.le_trans (ih r hmem) (Nat.le_max_right _ _)

theorem specMaxOutput_mem (rs : List Claude.UsageRow) (h : rs ≠ []) :
    ∃ r ∈ rs, r.output_tokens = ClaudeSpec.specMaxOutput rs := by
  induction rs with
  | nil => cases h rfl
  | cons x t ih =>
      have hcons : ClaudeSpec.specMaxOutput (x :: t) =
          max x.output_tokens (ClaudeSpec.specMaxOutput t) := rfl
      cases t with
      | nil =>
          refine ⟨x, by simp, ?_⟩
          simp [ClaudeSpec.specMaxOutput]
      | cons y t2 =>
          rcases Nat.le_total (ClaudeSpec.specMaxOutput (y :: t2)) x.output_tokens with
            hle | hle
          · refine ⟨x, by simp, ?_⟩
            rw [hcons, Nat.max_eq_left hle]
          · obtain ⟨r, hm, hr⟩ := ih (by simp)
            refine ⟨r, by simp [hm], ?_⟩
            rw [hcons, Nat.max_eq_right hle, hr]

theorem specRetained_isSome (rs : List Claude.UsageRow) (h : rs ≠ []) :
    ∃ u, ClaudeSpec.specRetained rs = some u := by
  obtain ⟨r, hm, hr⟩ := specMaxOutput_mem rs h
  exact Option.isSome_iff_exists.mp
    (List.find?_isSome.mpr ⟨r, hm, by simp [hr]⟩)

theorem specRetained_none_iff (rs : List Claude.UsageRow) :
    ClaudeSpec.specRetained rs = none ↔ rs = [] := by
  constructor
  · intro h
    by_contra hne
    obtain ⟨u, hu⟩ := specRetained_isSome rs hne
    rw [h] at hu
    cases hu
  · intro h
    subst h
    rfl

theorem specRetained_out (rs : List Claude.UsageRow) (u : Claude.UsageRow)
    (h : ClaudeSpec.specRetained rs = some u) :
    u.output_tokens = ClaudeSpec.specMaxOutput rs := by
  have := List.find?_some h
  exact of_decide_eq_true this

theorem specRetained_singleton (u : Claude.UsageRow) :
    ClaudeSpec.specRetained [u] = some u := by
  simp [ClaudeSpec.specRetained, ClaudeSpec.specMaxOutput]

theorem specRetained_append_single (rs : List Claude.UsageRow) (u : Claude.UsageRow) :
    ClaudeSpec.specRetained (rs ++ [u]) =
      match ClaudeSpec.specRetained rs with
      | none => some u
      | some b => if b.output_tokens < u.output_tokens then some u else some b := by
  cases hr : ClaudeSpec.specRetained rs with
  | none =>
      have hnil : rs = [] := (specRetained_none_iff rs).mp hr
      subst hnil
      simp [specRetained_singleton]
  | some b =>
      have hb : b.output_tokens = ClaudeSpec.specMaxOutput rs := specRetained_out rs b hr
      by_cases hlt : ClaudeSpec.specMaxOutput rs < u.output_tokens
      · have hM : ClaudeSpec.specMaxOutput (rs ++ [u]) = u.output_tokens := by
          rw [specMaxOutput_append_single, Nat.max_eq_right (Nat.le_of_lt hlt)]
        have hnone : rs.find? (fun r =>
            decide (r.output_tokens = ClaudeSpec.specMaxOutput (rs ++ [u]))) = none := by
          apply List.find?_eq_none.mpr
          intro r hrm
          simp only [decide_eq_true_eq, hM]
          exact Nat.ne_of_lt (Nat.lt_of_le_of_lt (le_specMaxOutput rs r hrm) hlt)
        rw [ClaudeSpec.specRetained, List.find?_append, hnone]
        simp [hM, hb, hlt]
      · have hM : ClaudeSpec.specMaxOutput (rs ++ [u]) = ClaudeSpec.specMaxOutput rs := by
          rw [specMaxOutput_append_single, Nat.max_eq_left (Nat.le_of_not_lt hlt)]
        have hfind : rs.find? (fun r =>
            decide (r.output_tokens = ClaudeSpec.specMaxOutput (rs ++ [u]))) = some b := by
          rw [hM]
          exact hr
        rw [ClaudeSpec.specRetained, List.find?_append, hfind]
        have hnlt : ¬(b.output_tokens < u.output_tokens) := by
          rw [hb]
          intro hcon
          exact hlt (Nat.lt_of_le_of_lt (Nat.le_refl _) hcon)
        simp [hnlt]

theorem dedupUsage_append (rows : List (Str × Claude.UsageRow))
    (p : Str × Claude.UsageRow) :
    Claude.dedupUsage (rows ++ [p]) =
      Claude.usageMapInsert (Claude.dedupUsage rows) p.1 p.2 := by
  simp [Claude.dedupUsage, List.foldl_append]

theorem specKeys_append (rows : List (Str × Claude.UsageRow))
    (p : Str × Claude.UsageRow) :
    ClaudeSpec.specKeys (rows ++ [p]) =
      if p.1 ∈ ClaudeSpec.specKeys rows then ClaudeSpec.specKeys rows
      else ClaudeSpec.specKeys rows ++ [p.1] := by
  simp [ClaudeSpec.specKeys, List.foldl_append]

theorem specRowsFor_append (rows : List (Str × Claude.UsageRow))
    (q : Str × Claude.UsageRow) (id : Str) :
    ClaudeSpec.specRowsFor (rows ++ [q]) id =
      ClaudeSpec.specRowsFor rows id ++ (if q.1 = id then [q.2] else []) := by
  by_cases h : q.1 = id <;>
    simp [ClaudeSpec.specRowsFor, List.filter_append, h]

/-- The dedup map of `calculateTokenUsage`, characterized against the
specification: its keys are the distinct row identifiers in first-seen order,
and for every identifier it retains exactly the first row attaining the
maximum output-token value among that identifier's rows. -/
theorem dedupUsage_spec (rows : List (Str × Claude.UsageRow)) :
    ((Claude.dedupUsage rows).map (fun p => p.1) = ClaudeSpec.specKeys rows) ∧
    (∀ id, Claude.lookupRow (Claude.dedupUsage rows) id =
      ClaudeSpec.specRetained (ClaudeSpec.specRowsFor rows id)) := by
  induction rows using List.reverseRecOn with
  | nil =>
      constructor
      · rfl
      · intro id
        rfl
  | append_singleton rows p ih =>
      obtain ⟨ihk, ihl⟩ := ih
      rw [dedupUsage_append]
      cases hlk : Claude.lookupRow (Claude.dedupUsage rows) p.1 with
      | none =>
          have hspec : ClaudeSpec.specRetained (ClaudeSpec.specRowsFor rows p.1) = none := by
            rw [← ihl]
            exact hlk
          have hrows : ClaudeSpec.specRowsFor rows p.1 = [] :=
            (specRetained_none_iff _).mp hspec
          have hnotmem : p.1 ∉ rows.map (fun q => q.1) :=
            (specRowsFor_eq_nil_iff rows p.1).mp hrows
          have hnotkeys : p.1 ∉ ClaudeSpec.specKeys rows := by
            rw [mem_specKeys]
            exact hnotmem
          constructor
          · simp only [Claude.usageMapInsert, hlk]
            rw [specKeys_append, if_neg hnotkeys, List.map_append, ihk]
            rfl
          · intro id
            simp only [Claude.usageMapInsert, hlk]
            rw [lookupRow_append, specRowsFor_append]
            by_cases hid : p.1 = id
            · have hid2 : id = p.1 := hid.symm
              subst hid2
              rw [ihl, hspec]
              simp [hrows, Claude.lookupRow, specRetained_singleton]
            · rw [ihl, if_neg hid]
              simp only [List.append_nil]
              cases hsr : ClaudeSpec.specRetained (ClaudeSpec.specRowsFor rows id) with
              | none => simp [Claude.lookupRow, hid]
              | some v => rfl
      | some ex =>
          have hspec : ClaudeSpec.specRetained (ClaudeSpec.specRowsFor rows p.1) =
              some ex := by
            rw [← ihl]
            exact hlk
          have hmem : p.1 ∈ ClaudeSpec.specKeys rows := by
            rw [mem_specKeys]
            by_contra hn
            rw [← specRowsFor_eq_nil_iff rows p.1] at hn
            rw [hn] at hspec
            cases hspec
          by_cases hlt : ex.output_tokens < p.2.output_tokens
          · constructor
            · simp only [Claude.usageMapInsert, hlk, if_pos hlt]
              rw [keys_map_replace, ihk, specKeys_append, if_pos hmem]
            · intro id
              simp only [Claude.usageMapInsert, hlk, if_pos hlt]
              rw [lookupRow_map_replace, specRowsFor_append]
              by_cases hid : id = p.1
              · subst hid
                simp [hlk, specRetained_append_single, hspec, hlt]
              · have hpid : ¬(p.1 = id) := fun h => hid h.symm
                rw [if_neg hid, ihl, if_neg hpid, List.append_nil]
          · constructor
            · simp only [Claude.usageMapInsert, hlk, if_neg hlt]
              rw [ihk, specKeys_append, if_pos hmem]
            · intro id
              simp only [Claude.usageMapInsert, hlk, if_neg hlt]
              rw [specRowsFor_append]
              by_cases hid : id = p.1
              · subst hid
                simp [hlk, specRetained_append_single, hspec, hlt]
              · have hpid : ¬(p.1 = id) := fun h => hid h.symm
                rw [ihl, if_neg hpid, List.append_nil]

/-- C2: the Claude `calculateTokenUsage` groups the assistant rows carrying
both a message id and a usage payload by id, retains per id exactly the first
row attaining the maximum output-token value (so replacement happens only on
strictly greater counts and ties keep the first seen), sums the four numeric
fields over the retained rows only, and reports as `apiCallCount` the number
of distinct retained ids; on the spec's example of two rows with one id and
output counts 10 and 50 it reports one call and 50 output tokens. -/
theorem claude_calculateTokenUsage_spec :
    (∀ lines : List Claude.TranscriptLine,
      (Claude.calculateTokenUsage lines).apiCallCount =
        (ClaudeSpec.specKeys (Claude.qualRows lines)).length ∧
      (∀ id, Claude.lookupRow (Claude.dedupUsage (Claude.qualRows lines)) id =
        ClaudeSpec.specRetained (ClaudeSpec.specRowsFor (Claude.qualRows lines) id)) ∧
      (Claude.calculateTokenUsage lines).inputTokens =
        ((Claude.dedupUsage (Claude.qualRows lines)).map
          (fun p => p.2.input_tokens)).sum ∧
      (Claude.calculateTokenUsage lines).cacheCreationTokens =
        ((Claude.dedupUsage (Claude.qualRows lines)).map
          (fun p => p.2.cache_creation_input_tokens)).sum ∧
      (Claude.calculateTokenUsage lines).cacheReadTokens =
        ((Claude.dedupUsage (Claude.qualRows lines)).map
          (fun p => p.2.cache_read_input_tokens)).sum ∧
      (Claude.calculateTokenUsage lines).outputTokens =
        ((Claude.dedupUsage (Claude.qualRows lines)).map
          (fun p => p.2.output_tokens)).sum) ∧
    (Claude.calculateTokenUsage ClaudeSpec.streamingExampleLines).apiCallCount = 1 ∧
    (Claude.calculateTokenUsage ClaudeSpec.streamingExampleLines).outputTokens = 50 := by
  constructor
  · intro lines
    obtain ⟨hk, hl⟩ := dedupUsage_spec (Claude.qualRows lines)
    refine ⟨?_, hl, rfl, rfl, rfl, rfl⟩
    have h2 : (Claude.calculateTokenUsage lines).apiCallCount =
        (Claude.dedupUsage (Claude.qualRows lines)).length := rfl
    rw [h2, ← hk, List.length_map]
  · constructor
    · decide
    · decide

end ASP
